import Mathlib

/-!
Verification development for the phonon interpolation core of the
repository (`simphony/data/interpolation.py`).

The Python source computes with IEEE floats; every float read from the
input files is a rational number, and the geometric parts of the code
(supercell image search, acoustic-sum-rule cell matching, the LO-TO
direction bookkeeping) use only field operations and comparisons, so they
are embedded exactly over `ℚ`.  The spectral parts (phase factors, the
Ewald dipole correction, mass weighting) involve transcendental functions
and are embedded over `ℝ`/`ℂ`.  External library calls
(`numpy.linalg.eigh`, `scipy.linalg.lapack.zheev`, `scipy.special.erfc`)
are not code of this repository: their results enter the embedding as
explicit parameters, constrained only by the contracts the source relies
on.
-/

namespace Simphony

open Matrix

/-- A q-point or 3-vector of rationals (machine floats are rationals). -/
abbrev Q3 := Fin 3 → ℚ

/-- Embedding of `np.rint` (round half to even), used for the normalised
q-point `q - np.rint(q)` in `_calculate_dipole_correction` and for the
fractional distances in `_enforce_realspace_asr`.  `Int.fract x` is
definitionally `x - ⌊x⌋`, the quantity the comparison is made on. -/
def rint (x : ℚ) : ℤ :=
  if Int.fract x < 1/2 then ⌊x⌋
  else if 1/2 < Int.fract x then ⌊x⌋ + 1
  else if Even ⌊x⌋ then ⌊x⌋ else ⌊x⌋ + 1

/-- Round-half-to-even is an odd function; this is what makes the
normalised q-point `q ↦ q - rint q` odd, so that the dipole correction at
`-q` is the entrywise conjugate of the one at `q`. -/
theorem rint_neg (x : ℚ) : rint (-x) = -rint x := by
  rcases eq_or_ne (Int.fract x) 0 with h0 | h0
  · have hx : (⌊x⌋ : ℚ) = x := by
      have h := Int.self_sub_floor x
      rw [h0] at h
      linarith
    have hfn : Int.fract (-x) = 0 := Int.fract_neg_eq_zero.mpr h0
    have hfl : ⌊(-x : ℚ)⌋ = -⌊x⌋ := by
      have h1 : ((-⌊x⌋ : ℤ) : ℚ) = -x := by push_cast; rw [hx]
      rw [← h1, Int.floor_intCast]
    simp only [rint, hfn, h0, hfl]
    norm_num
  · have hfpos : 0 < Int.fract x := (Int.fract_nonneg x).lt_of_ne (Ne.symm h0)
    have hfn : Int.fract (-x) = 1 - Int.fract x := Int.fract_neg h0
    have hxlt : x < (⌊x⌋ : ℚ) + 1 := Int.lt_floor_add_one x
    have hsub : x - ⌊x⌋ = Int.fract x := Int.self_sub_floor x
    have hfl : ⌊(-x : ℚ)⌋ = -⌊x⌋ - 1 := by
      rw [Int.floor_eq_iff]
      constructor
      · push_cast
        linarith
      · push_cast
        linarith
    rcases lt_trichotomy (Int.fract x) (1/2) with hlt | heq | hgt
    · have e1 : rint (-x) = -⌊x⌋ := by
        simp only [rint, hfn, hfl]
        rw [if_neg (by linarith), if_pos (by linarith)]
        ring
      have e2 : rint x = ⌊x⌋ := by
        simp only [rint]
        rw [if_pos hlt]
      rw [e1, e2]
    · rcases Int.even_or_odd ⌊x⌋ with he | ho
      · have hpar : ¬ Even (-⌊x⌋ - 1) := by
          rcases he with ⟨k, hk⟩
          intro hcon
          rcases hcon with ⟨m, hm⟩
          omega
        have e1 : rint (-x) = -⌊x⌋ := by
          simp only [rint, hfn, hfl, heq]
          rw [if_neg (by norm_num), if_neg (by norm_num), if_neg hpar]
          ring
        have e2 : rint x = ⌊x⌋ := by
          simp only [rint, heq]
          rw [if_neg (by norm_num), if_neg (by norm_num), if_pos he]
        rw [e1, e2]
      · have hpar : Even (-⌊x⌋ - 1) := by
          rcases ho with ⟨k, hk⟩
          exact ⟨-k - 1, by omega⟩
        have hpar2 : ¬ Even ⌊x⌋ := by
          rcases ho with ⟨k, hk⟩
          intro hcon
          rcases hcon with ⟨m, hm⟩
          omega
        have e1 : rint (-x) = -⌊x⌋ - 1 := by
          simp only [rint, hfn, hfl, heq]
          rw [if_neg (by norm_num), if_neg (by norm_num), if_pos hpar]
        have e2 : rint x = ⌊x⌋ + 1 := by
          simp only [rint, heq]
          rw [if_neg (by norm_num), if_neg (by norm_num), if_neg hpar2]
        rw [e1, e2]
        ring
    · have e1 : rint (-x) = -⌊x⌋ - 1 := by
        simp only [rint, hfn, hfl]
        rw [if_pos (by linarith)]
      have e2 : rint x = ⌊x⌋ + 1 := by
        simp only [rint]
        rw [if_neg (by linarith), if_pos hgt]
      rw [e1, e2]
      ring

/-- The normalised q-point `q_norm = q - np.rint(q)` (source line 803). -/
def qnorm (q : Q3) : Q3 := fun i => q i - rint (q i)

/-- Normalisation is odd in q. -/
theorem qnorm_neg (q : Q3) : qnorm (-q) = -qnorm q := by
  funext i
  simp [qnorm, rint_neg]
  ring

/-! ### LO-TO splitting bookkeeping (`calculate_fine_phonons`, lines 468-514) -/

/-- Modelled from the spec: `simphony.util.is_gamma` is not under `src/`;
per the spec a splitting q-point is one that "equals the zone center". -/
def isGammaSpec (qpt : Q3) : Prop := qpt = 0

instance (qpt : Q3) : Decidable (isGammaSpec qpt) := by
  unfold isGammaSpec
  infer_instance

/-- The effective splitting flag: splitting is only applied when the dipole
correction is on and the Born charges and dielectric tensor are present
(source lines 385-388). -/
def effectiveSplitting (splitting dipole bornPresent dielPresent : Bool) : Bool :=
  splitting && (dipole && (bornPresent && dielPresent))

/-- Directions of approach sampled for the non-analytic correction at a
zone-centre q-point at position `q` of the q-point list (source lines
470-476).  `none` models the `IndexError` raised by an out-of-bounds read:
for `q == 0` the source reads `qpts[1]` unconditionally. -/
def qDirs (qpts : List Q3) (q : ℕ) : Option (List Q3) :=
  if q = 0 then
    (qpts[1]?).map (fun x => [x])
  else if q = qpts.length - 1 then
    (qpts[qpts.length - 2]?).map (fun x => [x])
  else
    match qpts[q - 1]?, qpts[q + 1]? with
    | some qm, some qp => some [-qm, qp]
    | _, _ => none

/-- Number of extra (split) mode sets recorded against q-point index `q`:
the `na_corrs` loop (source lines 485-514) stores the mode set of the
first correction into the main `freqs`/`eigenvecs` arrays and appends one
`split_i`/`split_freqs` entry for each further correction, so the number
of extra sets is the number of sampled directions minus one. -/
def extraSetsAt (splitting : Bool) (qpts : List Q3) (q : ℕ) : Option ℕ :=
  match qpts[q]? with
  | none => none
  | some qpt =>
    if splitting = true ∧ isGammaSpec qpt then
      (qDirs qpts q).map (fun l => l.length - 1)
    else
      some 0

/-- The `split_i` array accumulated over the whole q-point loop: for each
loop index `q` the index is appended once per extra mode set.  A `none`
models the `IndexError` aborting `calculate_fine_phonons`. -/
def splitIndexList (splitting : Bool) (qpts : List Q3) : Option (List ℕ) :=
  ((List.range qpts.length).mapM
    (fun q => (extraSetsAt splitting qpts q).map (fun k => List.replicate k q))).map
    List.flatten

/-! ### Eigensolver post-processing (`calculate_fine_phonons`, lines 495-506) -/

/-- Frequency post-processing (source lines 503-506): take the square root
of the absolute eigenvalue, and negate it where the eigenvalue was
negative. -/
noncomputable def signedFreq (lam : ℝ) : ℝ :=
  if lam < 0 then -Real.sqrt |lam| else Real.sqrt |lam|

/-- The flat index `3*i + a` of (ion `i`, Cartesian axis `a`) used by the
`(n_cells..., 3*n_ions, 3*n_ions)` array layout of the source. -/
def flatIx (n : ℕ) (i : Fin n) (a : Fin 3) : Fin (3 * n) :=
  ⟨3 * i.val + a.val, by omega⟩

/-- Eigenvector reshaping (source line 502): `np.linalg.eigh` returns the
eigenvectors as matrix columns; `np.reshape(np.transpose(evecs), (n_branches,
n_ions, 3))` makes mode `m` the `m`-th row and splits the flat `3*n_ions`
vector into an `n_ions × 3` array in C order. -/
def reshapedEigenvector (n : ℕ) (evecs : Matrix (Fin (3 * n)) (Fin (3 * n)) ℂ)
    (m : Fin (3 * n)) : Fin n → Fin 3 → ℂ :=
  fun i a => evecs.transpose m (flatIx n i a)

/-! ### Eigensolver invocation with fallback (`calculate_fine_phonons`,
lines 495-499).  `np.linalg.eigh` and `scipy.linalg.lapack.zheev` are
external library routines; they enter the embedding as parameters.  The
primary solver may fail (`LinAlgError`, modelled `none`); `zheev` returns
a `(evals, evecs, info)` triple whose `info` flag signals non-convergence. -/

/-- Result of a dense Hermitian eigensolve: ascending eigenvalues and an
eigenvector matrix (eigenvectors as columns). -/
structure EighResult (K : Type) (N : ℕ) where
  evals : Fin N → ℝ
  evecs : Matrix (Fin N) (Fin N) K

/-- The solver step of the per-q-point loop: try `np.linalg.eigh`, fall
back to `zheev` on `LinAlgError`.  The source binds `zheev`'s `info` flag
but never inspects it. -/
def solveDynMat (N : ℕ) (primary : Matrix (Fin N) (Fin N) ℂ → Option (EighResult ℂ N))
    (fallback : Matrix (Fin N) (Fin N) ℂ → EighResult ℂ N × ℤ)
    (M : Matrix (Fin N) (Fin N) ℂ) : EighResult ℂ N :=
  match primary M with
  | some r => r
  | none => (fallback M).1

/-- The per-batch frequency computation: one solver step and frequency
post-processing per q-point matrix, with no error channel — the return
type of the loop carries no record of solver failures. -/
noncomputable def batchFreqs (N : ℕ) (primary : Matrix (Fin N) (Fin N) ℂ → Option (EighResult ℂ N))
    (fallback : Matrix (Fin N) (Fin N) ℂ → EighResult ℂ N × ℤ)
    (mats : List (Matrix (Fin N) (Fin N) ℂ)) : List (Fin N → ℝ) :=
  mats.map (fun M => fun m => signedFreq ((solveDynMat N primary fallback M).evals m))

/-! ### Claims C3, C7, C9, C10 -/

/-- C3: for every mode, the reported frequency equals
`sign(eigenvalue) * sqrt |eigenvalue|` (so a negative eigenvalue yields a
negative, imaginary-mode frequency), and the eigenvector of mode `m` is the
`m`-th eigenvector column reshaped from a flat `3*n_ions` vector into an
`n_ions × 3` array with `(i, a) ↦ 3*i + a`. -/
theorem C3_freq_sign_and_eigenvector_reshape (n : ℕ) (lam : ℝ)
    (evecs : Matrix (Fin (3 * n)) (Fin (3 * n)) ℂ) (m : Fin (3 * n)) (i : Fin n) (a : Fin 3) :
    signedFreq lam = Real.sign lam * Real.sqrt |lam| ∧
    reshapedEigenvector n evecs m i a = evecs (flatIx n i a) m := by
  constructor
  · unfold signedFreq
    rcases lt_trichotomy lam 0 with h | h | h
    · rw [if_pos h, Real.sign_of_neg h]
      ring
    · rw [h, if_neg (lt_irrefl 0), Real.sign_zero, abs_zero, Real.sqrt_zero, mul_zero]
    · rw [if_neg (not_lt.mpr h.le), Real.sign_of_pos h, one_mul]
  · rfl

/-- A two-entry q-point list whose first entry is the zone centre: the
endpoint case of the LO-TO splitting rule. -/
def qptsPairCE : List Q3 := [0, fun i => if i = 0 then 1/2 else 0]

/-- C7 counterexample: at a zone-centre q-point that is the first entry of
the list, exactly one direction of approach is sampled, but zero extra
mode sets are recorded against that q-point's index — the single sampled
direction's modes are written into the main output, contradicting "each
sampled direction producing one extra mode set". -/
theorem C7_counterexample :
    (qDirs qptsPairCE 0).map List.length = some 1 ∧
    extraSetsAt true qptsPairCE 0 = some 0 := by decide

/-- C7 (amended): when splitting is enabled and the q-point at position `q`
equals the zone centre, the sampled directions are the single adjacent
neighbour when `q` is the first or last entry and `[-qpts[q-1], qpts[q+1]]`
when it is interior; the first sampled direction's mode set is stored as
the q-point's primary modes, and each direction beyond the first produces
one extra mode set (so 0 extra sets at an endpoint, 1 at an interior
zone-centre point). -/
theorem C7_split_directions (qpts : List Q3) (q : ℕ) (hq : q < qpts.length)
    (h2 : 2 ≤ qpts.length) (hg : isGammaSpec (qpts.get ⟨q, hq⟩)) :
    (q = 0 →
      qDirs qpts q = some [qpts.get ⟨1, by omega⟩] ∧
      extraSetsAt true qpts q = some 0) ∧
    (q = qpts.length - 1 → q ≠ 0 →
      qDirs qpts q = some [qpts.get ⟨qpts.length - 2, by omega⟩] ∧
      extraSetsAt true qpts q = some 0) ∧
    (∀ (hne : q ≠ 0) (hnl : q ≠ qpts.length - 1),
      qDirs qpts q = some [-(qpts.get ⟨q - 1, by omega⟩), qpts.get ⟨q + 1, by omega⟩] ∧
      extraSetsAt true qpts q = some 1) := by
  have hget : qpts[q]? = some (qpts.get ⟨q, hq⟩) := by
    rw [List.getElem?_eq_getElem hq]
    rfl
  refine ⟨?_, ?_, ?_⟩
  · intro h0
    subst h0
    have h1 : 1 < qpts.length := by omega
    have hd : qDirs qpts 0 = some [qpts.get ⟨1, by omega⟩] := by
      unfold qDirs
      rw [if_pos rfl, List.getElem?_eq_getElem h1]
      rfl
    refine ⟨hd, ?_⟩
    simp only [extraSetsAt, hget, hd]
    rw [if_pos ⟨trivial, hg⟩]
    rfl
  · intro hl h0
    have h1 : qpts.length - 2 < qpts.length := by omega
    have hd : qDirs qpts q = some [qpts.get ⟨qpts.length - 2, by omega⟩] := by
      unfold qDirs
      rw [if_neg h0, if_pos hl, List.getElem?_eq_getElem h1]
      rfl
    refine ⟨hd, ?_⟩
    simp only [extraSetsAt, hget, hd]
    rw [if_pos ⟨trivial, hg⟩]
    rfl
  · intro hne hnl
    have hm : q - 1 < qpts.length := by omega
    have hp : q + 1 < qpts.length := by omega
    have hd : qDirs qpts q =
        some [-(qpts.get ⟨q - 1, by omega⟩), qpts.get ⟨q + 1, by omega⟩] := by
      unfold qDirs
      rw [if_neg hne, if_neg hnl, List.getElem?_eq_getElem hm, List.getElem?_eq_getElem hp]
      rfl
    refine ⟨hd, ?_⟩
    simp only [extraSetsAt, hget, hd]
    rw [if_pos ⟨trivial, hg⟩]
    rfl

/-- A three-entry q-point list with the zone centre as its interior entry. -/
def qptsTripleW : List Q3 :=
  [fun i => if i = 0 then 1/2 else 0, 0, fun i => if i = 1 then 1/2 else 0]

/-- C7 witness: the amended splitting rule instantiated at a concrete
three-point path with an interior zone-centre point. -/
theorem C7_split_directions_witness :
    qDirs qptsTripleW 1 = some [-(qptsTripleW.get ⟨0, by decide⟩), qptsTripleW.get ⟨2, by decide⟩] ∧
    extraSetsAt true qptsTripleW 1 = some 1 :=
  (C7_split_directions qptsTripleW 1 (by decide) (by decide) (by decide)).2.2
    (by decide) (by decide)

/-- The q-point list of C10: a single entry equal to the zone centre. -/
def qptsSingleGamma : List Q3 := [0]

/-- C10: with the default options all enabled (splitting effective) and a
single zone-centre q-point, the branch for loop index 0 reads `qpts[1]`,
which is out of bounds — the direction computation and hence the whole
`calculate_fine_phonons` loop aborts (modelled `none`) instead of
returning frequencies. -/
theorem C10_single_gamma_out_of_bounds :
    effectiveSplitting true true true true = true ∧
    qDirs qptsSingleGamma 0 = none ∧
    splitIndexList true qptsSingleGamma = none := by decide

/-- C9 (amended): when the primary eigensolver fails (`LinAlgError`) the
`zheev` fallback is invoked for that q-point; the fallback's `info`
convergence flag is bound but never inspected, so its (possibly
non-converged) eigenvalues and eigenvectors are used unconditionally and
no per-q-point failure is recorded. -/
theorem C9_fallback_info_ignored (N : ℕ)
    (primary : Matrix (Fin N) (Fin N) ℂ → Option (EighResult ℂ N))
    (r : EighResult ℂ N) (info : ℤ) (M : Matrix (Fin N) (Fin N) ℂ)
    (hfail : primary M = none) :
    solveDynMat N primary (fun _ => (r, info)) M = r := by
  unfold solveDynMat
  rw [hfail]

/-- C9 witness: the amended fallback behaviour at a concrete failing
primary solver and a fallback reporting non-convergence (`info = 1`). -/
theorem C9_fallback_info_ignored_witness :
    solveDynMat 3 (fun _ => none) (fun _ => (⟨0, 1⟩, 1)) 0 = ⟨0, 1⟩ :=
  C9_fallback_info_ignored 3 (fun _ => none) ⟨0, 1⟩ 1 0 rfl

/-- An always-failing primary solver (every call raises `LinAlgError`). -/
def failingPrimary : Matrix (Fin 3) (Fin 3) ℂ → Option (EighResult ℂ 3) := fun _ => none

/-- A fallback solver that reports non-convergence (`info = 1`) on every
call, returning zero eigenvalues. -/
def failingFallback : Matrix (Fin 3) (Fin 3) ℂ → EighResult ℂ 3 × ℤ := fun _ => (⟨0, 1⟩, 1)

/-- C9 counterexample: with both the primary and the fallback solver
failing on every q-point, the batch completes normally and returns
ordinary frequency lists computed from the non-converged fallback values —
no q-point is reported as failed and no failed-index list exists in the
output, contradicting the claim that a double failure is surfaced per
q-point. -/
theorem C9_counterexample :
    batchFreqs 3 failingPrimary failingFallback [0, 1] =
      [fun _ => (0 : ℝ), fun _ => (0 : ℝ)] := by
  unfold batchFreqs solveDynMat failingPrimary failingFallback
  simp [signedFreq]

/-! ### Claim C8: the precondition similarity transform -/

/-- Preconditioning transform (source lines 491-493): the mass-weighted
corrected dynamical matrix is conjugated by the previous q-point's
eigenvector matrix, `prev_evecsᴴ * dyn_mat_corr * prev_evecs`, before
diagonalisation. -/
noncomputable def preconditionTransform (N : ℕ) (P M : Matrix (Fin N) (Fin N) ℂ) :
    Matrix (Fin N) (Fin N) ℂ := Pᴴ * M * P

/-- C8: conjugating by a unitary matrix (the eigenvector matrix returned
by the Hermitian eigensolver at the previous q-point, or the initial
identity) preserves the characteristic polynomial, hence the multiset of
eigenvalues and therefore the ascending eigenvalue list the solver
returns: preconditioning changes only the conditioning, never the
reported frequencies. -/
theorem C8_precondition_preserves_charpoly (N : ℕ) (P M : Matrix (Fin N) (Fin N) ℂ)
    (hP : Pᴴ * P = 1) :
    (preconditionTransform N P M).charpoly = M.charpoly := by
  unfold preconditionTransform
  set f := (Polynomial.C : ℂ →+* Polynomial ℂ) with hf
  have hQ : f.mapMatrix Pᴴ * f.mapMatrix P = 1 := by
    rw [← RingHom.map_mul f.mapMatrix, hP, RingHom.map_one f.mapMatrix]
  have hS : ∀ A : Matrix (Fin N) (Fin N) (Polynomial ℂ),
      A * Matrix.scalar (Fin N) (Polynomial.X : Polynomial ℂ) =
      Matrix.scalar (Fin N) (Polynomial.X : Polynomial ℂ) * A := fun A =>
    ((Matrix.scalar_commute (Polynomial.X : Polynomial ℂ) (fun r => Commute.all _ r) A)).symm
  have hSQ : f.mapMatrix Pᴴ * Matrix.scalar (Fin N) (Polynomial.X : Polynomial ℂ) *
      f.mapMatrix P = Matrix.scalar (Fin N) (Polynomial.X : Polynomial ℂ) := by
    rw [Matrix.mul_assoc, ← hS (f.mapMatrix P), ← Matrix.mul_assoc, hQ, one_mul]
  have hMQ : f.mapMatrix Pᴴ * f.mapMatrix M * f.mapMatrix P =
      f.mapMatrix (Pᴴ * M * P) := by
    rw [RingHom.map_mul f.mapMatrix (Pᴴ * M) P, RingHom.map_mul f.mapMatrix Pᴴ M]
  have hcm : f.mapMatrix Pᴴ * Matrix.charmatrix M * f.mapMatrix P =
      Matrix.charmatrix (Pᴴ * M * P) := by
    unfold Matrix.charmatrix
    rw [← hf, Matrix.mul_sub, Matrix.sub_mul, hSQ, hMQ]
  rw [Matrix.charpoly, ← hcm, Matrix.det_mul, Matrix.det_mul, Matrix.charpoly]
  have hdet : (f.mapMatrix Pᴴ).det * (f.mapMatrix P).det = 1 := by
    rw [← Matrix.det_mul, hQ, Matrix.det_one]
  calc (f.mapMatrix Pᴴ).det * (Matrix.charmatrix M).det * (f.mapMatrix P).det
      = (Matrix.charmatrix M).det * ((f.mapMatrix Pᴴ).det * (f.mapMatrix P).det) := by ring
    _ = (Matrix.charmatrix M).det := by rw [hdet, mul_one]

/-- The concrete matrix used by the C8 witness. -/
def precondWitMat : Matrix (Fin 2) (Fin 2) ℂ :=
  Matrix.of fun i j => if i = j then (2 : ℂ) else Complex.I

/-- C8 witness: the precondition transform by the initial identity
`prev_evecs` matrix at a concrete matrix. -/
theorem C8_precondition_witness :
    (preconditionTransform 2 1 precondWitMat).charpoly = precondWitMat.charpoly :=
  C8_precondition_preserves_charpoly 2 1 precondWitMat (by simp)

/-! ### Crystal/supercell geometry (shared by the supercell image search
and the real-space ASR cell matching).  All operations are exact field
operations on machine floats, embedded over ℚ. -/

/-- Machine epsilon of an IEEE double (`sys.float_info.epsilon`). -/
def machEps : ℚ := 1 / 2 ^ 52

/-- Crystal and supercell geometry as consumed by the interpolation code. -/
structure Geom (nIons nCells : ℕ) where
  cellVec : Matrix (Fin 3) (Fin 3) ℚ
  ionR : Fin nIons → Fin 3 → ℚ
  cellOrigins : Fin nCells → Fin 3 → ℤ
  scMatrix : Matrix (Fin 3) (Fin 3) ℤ

/-- Determinant of a 3×3 rational matrix, written out (the embedding of
the exact value `np.linalg.inv` is an approximation of). -/
def det3 (M : Matrix (Fin 3) (Fin 3) ℚ) : ℚ :=
  M 0 0 * (M 1 1 * M 2 2 - M 1 2 * M 2 1)
  - M 0 1 * (M 1 0 * M 2 2 - M 1 2 * M 2 0)
  + M 0 2 * (M 1 0 * M 2 1 - M 1 1 * M 2 0)

/-- Exact 3×3 inverse via the adjugate, written out entrywise (the
idealisation of `np.linalg.inv`, validated by `inv3_mul` below). -/
def inv3 (M : Matrix (Fin 3) (Fin 3) ℚ) : Matrix (Fin 3) (Fin 3) ℚ :=
  Matrix.of fun i j =>
    (match i, j with
     | 0, 0 => M 1 1 * M 2 2 - M 1 2 * M 2 1
     | 0, 1 => M 0 2 * M 2 1 - M 0 1 * M 2 2
     | 0, 2 => M 0 1 * M 1 2 - M 0 2 * M 1 1
     | 1, 0 => M 1 2 * M 2 0 - M 1 0 * M 2 2
     | 1, 1 => M 0 0 * M 2 2 - M 0 2 * M 2 0
     | 1, 2 => M 0 2 * M 1 0 - M 0 0 * M 1 2
     | 2, 0 => M 1 0 * M 2 1 - M 1 1 * M 2 0
     | 2, 1 => M 0 1 * M 2 0 - M 0 0 * M 2 1
     | 2, 2 => M 0 0 * M 1 1 - M 0 1 * M 1 0) / det3 M

/-- `inv3` really is the inverse whenever the determinant is nonzero,
validating the embedding of `np.linalg.inv`. -/
theorem inv3_mul (M : Matrix (Fin 3) (Fin 3) ℚ) (h : det3 M ≠ 0) : M * inv3 M = 1 := by
  have h' : M 0 0 * (M 1 1 * M 2 2 - M 1 2 * M 2 1)
      - M 0 1 * (M 1 0 * M 2 2 - M 1 2 * M 2 0)
      + M 0 2 * (M 1 0 * M 2 1 - M 1 1 * M 2 0) ≠ 0 := by
    simpa [det3] using h
  have f0 : (⟨0, by omega⟩ : Fin 3) = 0 := rfl
  have f1 : (⟨1, by omega⟩ : Fin 3) = 1 := rfl
  have f2 : (⟨2, by omega⟩ : Fin 3) = 2 := rfl
  ext i j
  fin_cases i <;> fin_cases j <;>
    · simp [inv3, det3, Matrix.mul_apply, Fin.sum_univ_three,
        Matrix.one_apply, mul_div_assoc', f0, f1, f2]
      rw [div_add_div_same, div_add_div_same, div_eq_iff h']
      ring

/-! ### Claim C6: acoustic-sum-rule enforcement failure policy
(`_enforce_realspace_asr`, `_enforce_reciprocal_asr`, `_find_acoustic_modes`) -/

/-- A (ion, axis) index of the `3*n_ions`-dimensional dynamical-matrix
space; the flat index `3*i + a` of the source arrays. -/
abbrev PairIx (n : ℕ) := Fin n × Fin 3

/-- Cell origins in fractional supercell coordinates:
`np.einsum('ij,kj->ik', cell_origins, np.linalg.inv(np.transpose(sc_matrix)))`
(source lines 976-977). -/
def cellOriginsSc {n c : ℕ} (g : Geom n c) (k : Fin c) (ax : Fin 3) : ℚ :=
  ∑ j : Fin 3, (g.cellOrigins k j : ℚ) * inv3 ((g.scMatrix.map Int.cast).transpose) ax j

/-- The summed absolute fractional distance between the relative cell
vector `(origin j - origin nc)` and candidate equivalent origin `m`
(source lines 980-998): `np.sum(np.abs(dist - np.rint(dist)))`. -/
def asrDistSum {n c : ℕ} (g : Geom n c) (nc j m : Fin c) : ℚ :=
  ∑ ax : Fin 3,
    |(cellOriginsSc g j ax - cellOriginsSc g nc ax - cellOriginsSc g m ax) -
      (rint (cellOriginsSc g j ax - cellOriginsSc g nc ax - cellOriginsSc g m ax) : ℚ)|

/-- The matched equivalent cell `sc_relative_index[j]` for row-block `nc`:
the first index minimising the fractional distance (`np.argmin` returns
the first minimiser). -/
def scRelIndex {n c : ℕ} (g : Geom n c) (nc j : Fin c) : Fin c :=
  (((List.finRange c).argmin (asrDistSum g nc j)).getD j)

/-- Geometry-match failure of the real-space ASR assembly (source lines
1002-1008): some relative cell vector has no equivalent origin within
`16 * sys.float_info.epsilon`. -/
def realspaceASRFailure {n c : ℕ} (g : Geom n c) : Prop :=
  ∃ nc j : Fin c, 16 * machEps < asrDistSum g nc j (scRelIndex g nc j)

instance {n c : ℕ} (g : Geom n c) : Decidable (realspaceASRFailure g) := by
  unfold realspaceASRFailure
  infer_instance

/-- Centre-of-mass displacement magnitude squared of mode `m`
(`_find_acoustic_modes`, lines 1106-1111): reshape the eigenvector column,
sum the displacement over all ions per axis, then sum the absolute squares
over axes. -/
noncomputable def comDispSq {K : Type} [RCLike K] {ι : Type} [Fintype ι]
    (evecs : Matrix (ι × Fin 3) (ι × Fin 3) K) (m : ι × Fin 3) : ℝ :=
  ∑ a : Fin 3, ‖∑ i : ι, evecs (i, a) m‖ ^ 2

/-- The acoustic-mode count check (source lines 1112-1116): at least 3
modes must have centre-of-mass displacement squared exceeding
`sensitivity * sc_mass = 0.5 * n_ions`. -/
noncomputable def acousticCheckOk {K : Type} [RCLike K] {ι : Type} [Fintype ι]
    (evecs : Matrix (ι × Fin 3) (ι × Fin 3) K) : Prop :=
  3 ≤ (@Finset.filter _ (fun m => (1/2 : ℝ) * (Fintype.card ι) < comDispSq evecs m)
        (Classical.decPred _) Finset.univ).card

/-- The three acoustic mode indices, `np.argsort(c_of_m_disp_sq)[-3:]`
(source line 1118).  NumPy's default sort is unstable, so the order among
equal keys is unspecified; the embedding fixes the stable order. -/
noncomputable def acousticModeIndices {K : Type} [RCLike K] {ι : Type} [Fintype ι]
    (evecs : Matrix (ι × Fin 3) (ι × Fin 3) K) : List (ι × Fin 3) :=
  (((Finset.univ : Finset (ι × Fin 3)).toList).mergeSort
    (fun p q => decide (comDispSq evecs p ≤ comDispSq evecs q))).drop
    (Fintype.card (ι × Fin 3) - 3)

/-- The eigenvalue shift scale `1e-8 * np.min(np.abs(evals))` used by both
ASR correction branches. -/
noncomputable def asrTol {ix : Type} (evals : ix → ℝ) : ℝ :=
  (1e-8 : ℝ) * sInf (Set.range fun m => |evals m|)

open Classical in
/-- Reciprocal-space ASR enforcement (`_enforce_reciprocal_asr`): on
acoustic-mode identification failure the uncorrected dynamical matrix is
returned; otherwise each acoustic mode of the gamma-point matrix is
shifted out.  `evalsG`/`evecsG` is the external `np.linalg.eigh`
decomposition of `dyn_mat_gamma`. -/
noncomputable def enforceReciprocalASR {n : ℕ} (evalsG : PairIx n → ℝ)
    (evecsG : Matrix (PairIx n) (PairIx n) ℂ)
    (dm : Matrix (PairIx n) (PairIx n) ℂ) : Matrix (PairIx n) (PairIx n) ℂ :=
  if acousticCheckOk evecsG then
    (acousticModeIndices evecsG).enum.foldl
      (fun acc p =>
        acc - Matrix.of fun r cc =>
          (((asrTol evalsG) * p.1 + evalsG p.2 : ℝ) : ℂ) * evecsG r p.2 * evecsG cc p.2)
      dm
  else dm

/-- Index of the assembled whole-supercell force-constant matrix `sq_fc`:
(cell block, ion, axis). -/
abbrev SqIx (n c : ℕ) := (Fin c × Fin n) × Fin 3

/-- Assembly of the `(3*n_ions*n_cells)²` force-constant matrix (source
lines 1009-1011): row block `nc` holds the transposed force-constant
blocks of the matched cells `sc_relative_index`. -/
noncomputable def sqFC {n c : ℕ} (g : Geom n c)
    (fc : Fin c → Matrix (PairIx n) (PairIx n) ℝ) :
    Matrix (SqIx n c) (SqIx n c) ℝ :=
  Matrix.of fun r cc =>
    fc (scRelIndex g r.1.1 cc.1.1) (cc.1.2, cc.2) (r.1.2, r.2)

open Classical in
/-- Real-space ASR enforcement (`_enforce_realspace_asr`): on geometry
match failure or acoustic-mode identification failure the raw force
constants are returned; otherwise the acoustic modes of the assembled
matrix are shifted out and the first block column is projected back.
`evalsSq`/`evecsSq` is the external `np.linalg.eigh` decomposition of the
(real) assembled matrix. -/
noncomputable def enforceRealspaceASR {n c : ℕ} (g : Geom n c)
    (fc : Fin c → Matrix (PairIx n) (PairIx n) ℝ)
    (evalsSq : SqIx n c → ℝ) (evecsSq : Matrix (SqIx n c) (SqIx n c) ℝ) :
    Fin c → Matrix (PairIx n) (PairIx n) ℝ :=
  if realspaceASRFailure g then fc
  else if acousticCheckOk evecsSq then
    let corrected := (acousticModeIndices evecsSq).foldl
      (fun acc ac => acc - Matrix.of fun r cc =>
        (asrTol evalsSq + evalsSq ac) * evecsSq r ac * evecsSq cc ac)
      (sqFC g fc)
    fun cell => Matrix.of fun rp cp =>
      corrected ((cell, rp.1), rp.2) ((⟨0, cell.pos⟩, cp.1), cp.2)
  else fc

/-- C6: whenever ASR enforcement fails — fewer than 3 qualifying acoustic
modes, or no equivalent supercell cell matched within 16 machine epsilons
— the enforcement routine returns its input (force constants, resp.
dynamical matrix) unmodified; both routines are total, so the overall
interpolation run is never aborted by such a failure.  (The warning
emitted alongside is I/O and is not modelled.) -/
theorem C6_asr_failure_returns_input {n c : ℕ} (g : Geom n c)
    (fc : Fin c → Matrix (PairIx n) (PairIx n) ℝ)
    (evalsSq : SqIx n c → ℝ) (evecsSq : Matrix (SqIx n c) (SqIx n c) ℝ)
    (evalsG : PairIx n → ℝ) (evecsG : Matrix (PairIx n) (PairIx n) ℂ)
    (dm : Matrix (PairIx n) (PairIx n) ℂ) :
    (realspaceASRFailure g → enforceRealspaceASR g fc evalsSq evecsSq = fc) ∧
    (¬ acousticCheckOk evecsSq → enforceRealspaceASR g fc evalsSq evecsSq = fc) ∧
    (¬ acousticCheckOk evecsG → enforceReciprocalASR evalsG evecsG dm = dm) := by
  refine ⟨?_, ?_, ?_⟩
  · intro hfail
    unfold enforceRealspaceASR
    rw [if_pos hfail]
  · intro hac
    unfold enforceRealspaceASR
    by_cases hfail : realspaceASRFailure g
    · rw [if_pos hfail]
    · rw [if_neg hfail, if_neg hac]
  · intro hac
    unfold enforceReciprocalASR
    rw [if_neg hac]

/-- The zero eigenvector matrix has no qualifying acoustic mode, so the
acoustic check fails on it. -/
theorem acousticCheckOk_zero {K : Type} [RCLike K] {ι : Type} [Fintype ι] :
    ¬ acousticCheckOk (0 : Matrix (ι × Fin 3) (ι × Fin 3) K) := by
  unfold acousticCheckOk
  intro hcon
  have hempty : (@Finset.filter _
      (fun m => (1/2 : ℝ) * (Fintype.card ι) < comDispSq (0 : Matrix (ι × Fin 3) (ι × Fin 3) K) m)
      (Classical.decPred _) Finset.univ) = ∅ := by
    apply Finset.filter_false_of_mem
    intro m _
    simp only [comDispSq, Matrix.zero_apply, Finset.sum_const_zero, norm_zero]
    intro hlt
    have h0 : (0 : ℝ) ≤ (1/2 : ℝ) * (Fintype.card ι) := by positivity
    simp at hlt
    linarith
  rw [hempty] at hcon
  simp at hcon

/-- A deliberately inconsistent geometry: a 3×1×1 supercell whose origin
list contains only two cells, so cell matching modulo the supercell
cannot succeed. -/
def geomBadASR : Geom 1 2 where
  cellVec := 1
  ionR := fun _ _ => 0
  cellOrigins := fun k j => if k = 1 ∧ j = 0 then 1 else 0
  scMatrix := Matrix.of fun i j => if i = j then (if i = 0 then 3 else 1) else 0

unseal Rat.add Rat.mul Rat.inv Rat.sub in
set_option maxRecDepth 16384 in
/-- C6 witness: the failure branches instantiated concretely — geometry
matching fails on `geomBadASR` (minimal fractional distance 1/3 exceeds
16 machine epsilons) and the acoustic check fails on a zero eigenvector
matrix; both enforcement routines return their input. -/
theorem C6_asr_failure_returns_input_witness :
    enforceRealspaceASR geomBadASR (fun _ => 0) 0 0 = (fun _ => 0) ∧
    enforceReciprocalASR (0 : PairIx 1 → ℝ) (0 : Matrix (PairIx 1) (PairIx 1) ℂ) 1 = 1 := by
  constructor
  · exact (C6_asr_failure_returns_input geomBadASR (fun _ => 0) 0 0 0 0 1).1 (by decide)
  · exact (C6_asr_failure_returns_input geomBadASR (fun _ => 0) 0 0 0
      (0 : Matrix (PairIx 1) (PairIx 1) ℂ) 1).2.2 acousticCheckOk_zero

/-! ### Claim C2: the supercell image search
(`_calculate_supercell_images`, source lines 1188-1250) -/

/-- The 14-point Wigner-Seitz construction list `ws_frac` (source lines
1209-1212); the search uses its tail (13 directions). -/
def wsFrac : List (Fin 3 → ℤ) :=
  [![0, 0, 0], ![0, 0, 1], ![0, 1, 0], ![0, 1, 1], ![0, 1, -1], ![1, 0, 0], ![1, 0, 1],
   ![1, 0, -1], ![1, 1, 0], ![1, 1, 1], ![1, 1, -1], ![1, -1, 0], ![1, -1, 1], ![1, -1, -1]]

/-- Supercell vectors `sc_vecs = np.dot(sc_matrix, cell_vec)`. -/
def scVecs {n c : ℕ} (g : Geom n c) (i k : Fin 3) : ℚ :=
  ∑ j : Fin 3, (g.scMatrix i j : ℚ) * g.cellVec j k

/-- A Wigner-Seitz boundary point `ws_list = np.dot(ws_frac, sc_vecs)`. -/
def wsPoint {n c : ℕ} (g : Geom n c) (w : Fin 3 → ℤ) (k : Fin 3) : ℚ :=
  ∑ j : Fin 3, (w j : ℚ) * scVecs g j k

/-- The supercell image limit is hard-coded to `lim = 2` (source line 409),
giving the 125 candidate translations of `_get_all_origins(lim+1, -lim)`
in x-major order. -/
def imageR (m : Fin 125) : Fin 3 → ℤ :=
  fun ax =>
    (((match ax with
       | 0 => (m : ℕ) / 25
       | 1 => ((m : ℕ) / 5) % 5
       | 2 => (m : ℕ) % 5) : ℕ) : ℤ) - 2

/-- Cartesian coordinates of candidate image `m`:
`sc_image_cart = np.einsum('ij,jk->ik', sc_image_r, sc_vecs)`. -/
def scImageCart {n c : ℕ} (g : Geom n c) (m : Fin 125) (k : Fin 3) : ℚ :=
  ∑ j : Fin 3, (imageR m j : ℚ) * scVecs g j k

/-- Fractional supercell coordinates of ion `i` in cell `nc`:
`(cell_origins + ion_r) @ inv(sc_matrixᵀ)` (source lines 1225-1227). -/
def scIonR {n c : ℕ} (g : Geom n c) (nc : Fin c) (i : Fin n) (l : Fin 3) : ℚ :=
  ∑ k : Fin 3, ((g.cellOrigins nc k : ℚ) + g.ionR i k) *
    inv3 ((g.scMatrix.map Int.cast).transpose) k l

/-- Cartesian coordinates of ion `i` in cell `nc` of the supercell. -/
def scIonCart {n c : ℕ} (g : Geom n c) (nc : Fin c) (i : Fin n) (k : Fin 3) : ℚ :=
  ∑ l : Fin 3, scIonR g nc i l * scVecs g l k

/-- Displacement from ion `j`'s image in cell `nc` shifted by candidate
translation `m` to ion `i` in the origin cell (source line 1237). -/
def imageDist {n c : ℕ} (g : Geom n c) (nc : Fin c) (i j : Fin n) (m : Fin 125)
    (k : Fin 3) : ℚ :=
  scIonCart g ⟨0, nc.pos⟩ i k - scIonCart g nc j k - scImageCart g m k

/-- The Wigner-Seitz acceptance test (source lines 1239-1244): for every
boundary direction, the projected fraction of the displacement is at most
`0.5 * cutoff_scale + 0.001` (`cutoff_scale = 1.0`); `np.amax(...) <= r`
over the 13 directions is exactly this universally quantified bound. -/
def imageValid {n c : ℕ} (g : Geom n c) (nc : Fin c) (i j : Fin n) (m : Fin 125) : Prop :=
  ∀ w ∈ wsFrac.tail,
    |(∑ k : Fin 3, imageDist g nc i j m k * wsPoint g w k) *
      (1 / ∑ k : Fin 3, (wsPoint g w k) ^ 2)| ≤ 1/2 * 1 + 1/1000

instance {n c : ℕ} (g : Geom n c) (nc : Fin c) (i j : Fin n) (m : Fin 125) :
    Decidable (imageValid g nc i j m) := by
  unfold imageValid
  infer_instance

/-- The list of valid periodic images of one (origin cell, ion, ion)
triple: `np.where(...)` over the 125 candidates. -/
def validImages {n c : ℕ} (g : Geom n c) (nc : Fin c) (i j : Fin n) : List (Fin 125) :=
  (List.finRange 125).filter (fun m => decide (imageValid g nc i j m))

/-- The per-triple image count `n_sc_images[nc, i, j]`, stored by the
source in an `np.int8` array (maximum representable value 127). -/
def nSCImages {n c : ℕ} (g : Geom n c) (nc : Fin c) (i j : Fin n) : ℕ :=
  (validImages g nc i j).length

/-- C2 (amended): every image count is at most 125 — hence at most 127 and
representable in the `int8` array — but a count of zero is possible and is
not reported: `_calculate_supercell_images` performs no emptiness check
and returns normally, and `calculate_fine_phonons` silently skips
zero-count triples when weighting the force constants
(`np.divide(..., where=n_sc_images_repeat != 0)`, lines 436-439). -/
theorem C2_image_count_bounded {n c : ℕ} (g : Geom n c) (nc : Fin c) (i j : Fin n) :
    nSCImages g nc i j ≤ 125 ∧ nSCImages g nc i j ≤ 127 := by
  have h : nSCImages g nc i j ≤ 125 := by
    unfold nSCImages validImages
    calc ((List.finRange 125).filter _).length ≤ (List.finRange 125).length :=
          List.length_filter_le _ _
      _ = 125 := List.length_finRange 125
  exact ⟨h, h.trans (by omega)⟩

/-- A valid but extremely skewed supercell: identity unit cell, integer
supercell matrix `[[1,0,0],[100,1,0],[0,0,1]]` of determinant 1 (so one
cell at the origin), two ions with normalised fractional positions. -/
def geomSkew : Geom 2 1 where
  cellVec := 1
  ionR := fun i ax => if i = 1 then (if ax = 0 then 1/2 else if ax = 1 then 9/10 else 0) else 0
  cellOrigins := fun _ _ => 0
  scMatrix := Matrix.of fun i j =>
    if i = j then 1 else if i = 1 ∧ j = 0 then 100 else 0

unseal Rat.add Rat.mul Rat.inv Rat.sub in
set_option maxRecDepth 100000 in
/-- C2 counterexample: for this valid geometry the (0, ion 0, ion 1)
triple has zero periodic images within the hard-coded ±2 candidate box —
the claimed invariant `count ≥ 1` fails, and the search reports nothing:
it simply records the zero count and returns. -/
theorem C2_counterexample :
    nSCImages geomSkew 0 0 1 = 0 ∧ validImages geomSkew 0 0 1 = [] := by
  constructor <;> decide

/-! ### Fourier interpolation of the dynamical matrix
(`_calculate_phases`, `_calculate_dyn_mat`, source lines 534-615 and
1123-1185) -/

/-- The per-axis phase factor `np.exp(2j*math.pi*q)`; all other phases are
integer powers of these three values (the source's required optimisation). -/
noncomputable def ph (x : ℚ) : ℂ := Complex.exp (2 * Real.pi * Complex.I * (x : ℂ))

theorem ph_zero : ph 0 = 1 := by
  simp [ph]

theorem ph_ne_zero (x : ℚ) : ph x ≠ 0 := Complex.exp_ne_zero _

/-- Conjugating a phase negates the q-point. -/
theorem ph_conj (x : ℚ) : (starRingEnd ℂ) (ph x) = ph (-x) := by
  unfold ph
  rw [← Complex.exp_conj]
  congr 1
  simp [Complex.ext_iff]

/-- Conjugation through integer powers of phases. -/
theorem ph_zpow_conj (x : ℚ) (z : ℤ) :
    (starRingEnd ℂ) (ph x ^ z) = ph (-x) ^ z := by
  rw [map_zpow₀, ph_conj]

/-- Supercell image offsets
`sc_offsets = np.einsum('ji,kj->ki', sc_matrix, sc_image_r)`. -/
def scOffset {n c : ℕ} (g : Geom n c) (m : Fin 125) (i : Fin 3) : ℤ :=
  ∑ j : Fin 3, g.scMatrix j i * imageR m j

/-- Phase factor of supercell image `m`:
`exp(2πi q)` raised to the per-axis integer offsets. -/
noncomputable def scPhase {n c : ℕ} (g : Geom n c) (q : Q3) (m : Fin 125) : ℂ :=
  ∏ i : Fin 3, ph (q i) ^ scOffset g m i

/-- Phase factor of cell origin `nc`. -/
noncomputable def cellPhase {n c : ℕ} (g : Geom n c) (q : Q3) (nc : Fin c) : ℂ :=
  ∏ i : Fin 3, ph (q i) ^ g.cellOrigins nc i

/-- Sum of the phases of all valid periodic images of the (nc, i, j)
triple (the cumulant-method phase sum; the padding index -1 of the source
contributes phase 0, i.e. nothing). -/
noncomputable def scPhaseSum {n c : ℕ} (g : Geom n c) (q : Q3) (nc : Fin c)
    (i j : Fin n) : ℂ :=
  ((validImages g nc i j).map (fun m => scPhase g q m)).sum

/-- The image-count-weighted force constants
`fc_img_weighted[nc, (j,b), (i,a)] = fc / n_sc_images[nc, i, j]` (source
lines 436-439).  Entries with image count zero are skipped by the
source's `where=` clause and are multiplied by an empty (zero) phase sum
in the dynamical matrix, so their value is immaterial; Lean's
division-by-zero convention (0) is used for them. -/
noncomputable def fcImgWeighted {n c : ℕ} (g : Geom n c)
    (fc : Fin c → Matrix (PairIx n) (PairIx n) ℝ) (nc : Fin c)
    (rp cp : PairIx n) : ℝ :=
  fc nc rp cp / (nSCImages g nc cp.1 rp.1 : ℝ)

/-- The non-mass-weighted dynamical matrix at `q` (`_calculate_dyn_mat`):
entry ((i,a),(j,b)) sums, over origin cells, the (j,b),(i,a) entry of the
image-weighted force constants times the cell phase times the image phase
sum — the final transpose restoring (i,j) ion order is built in. -/
noncomputable def dynMat {n c : ℕ} (g : Geom n c)
    (fc : Fin c → Matrix (PairIx n) (PairIx n) ℝ) (q : Q3) :
    Matrix (PairIx n) (PairIx n) ℂ :=
  Matrix.of fun rp cp =>
    ∑ nc : Fin c,
      (fcImgWeighted g fc nc cp rp : ℂ) * cellPhase g q nc * scPhaseSum g q nc rp.1 cp.1

/-! ### Ewald dipole correction
(`_dipole_correction_init`, `_calculate_dipole_correction`, source lines
618-872).  `scipy.special.erfc` is an external routine and enters as a
function parameter; the unit conversion to bohr is a fixed positive scale
absorbed into the stored rational cell vectors. -/

/-- Born charges and dielectric tensor (machine floats), plus the external
complementary error function. -/
structure DipoleInput (n : ℕ) where
  born : Fin n → Matrix (Fin 3) (Fin 3) ℚ
  dielectric : Matrix (Fin 3) (Fin 3) ℚ
  erfc : ℝ → ℝ

section Ewald

variable {n c : ℕ}

/-- The real cell vectors. -/
noncomputable def cellVecR (g : Geom n c) : Matrix (Fin 3) (Fin 3) ℝ :=
  g.cellVec.map Rat.cast

/-- Modelled from the spec: `simphony.util.reciprocal_lattice` is not
under `src/`; per spec section 8 the identity cell maps to 2π times the
identity, i.e. the standard `B = 2π (A⁻¹)ᵀ`. -/
noncomputable def recipLat (g : Geom n c) : Matrix (Fin 3) (Fin 3) ℝ :=
  (2 * Real.pi) • ((cellVecR g)⁻¹).transpose

/-- Row norms `abc_mag` of the cell vectors. -/
noncomputable def abcMag (g : Geom n c) (i : Fin 3) : ℝ :=
  Real.sqrt (∑ k : Fin 3, (cellVecR g i k) ^ 2)

/-- Geometric mean cell length. -/
noncomputable def meanAbcMag (g : Geom n c) : ℝ :=
  (∏ i : Fin 3, abcMag g i) ^ ((1 : ℝ) / 3)

/-- Lattice skewness. -/
noncomputable def skewF (g : Geom n c) : ℝ :=
  max (abcMag g 0) (max (abcMag g 1) (abcMag g 2)) / meanAbcMag g

/-- The screening width before the dielectric scaling (source line 639). -/
noncomputable def etaRaw (g : Geom n c) : ℝ :=
  Real.sqrt Real.pi / meanAbcMag g * (n : ℝ) ^ ((1 : ℝ) / 6)

/-- Real-space cutoff radius, `sqrt(precision) * skew` with precision 50. -/
noncomputable def realCutoff (g : Geom n c) : ℝ := Real.sqrt 50 * skewF g

/-- Reciprocal-space cutoff radius (`recip_scale = 1.0`). -/
noncomputable def recipCutoff (g : Geom n c) : ℝ := 1 * Real.sqrt 50 * skewF g

/-- Real-space enumeration bound `max_cells_abc` (source lines 646-648,
`astype(int32)` truncation of a nonnegative value is the floor). -/
noncomputable def maxCellsAbc (g : Geom n c) (i : Fin 3) : ℤ :=
  ⌊Real.sqrt ((realCutoff g / etaRaw g) ^ 2 +
      ∑ k : Fin 3, (∑ i' : Fin 3, |cellVecR g i' k|) ^ 2) / abcMag g i⌋ + 1

/-- Row norms of the reciprocal lattice. -/
noncomputable def hklMag (g : Geom n c) (i : Fin 3) : ℝ :=
  Real.sqrt (∑ k : Fin 3, (recipLat g i k) ^ 2)

/-- Reciprocal enumeration bound `max_cells_hkl` (source lines 656-659). -/
noncomputable def maxCellsHkl (g : Geom n c) (i : Fin 3) : ℤ :=
  ⌊Real.sqrt ((recipCutoff g * 2 * etaRaw g) ^ 2 +
      ∑ k : Fin 3, (∑ i' : Fin 3, |recipLat g i' k|) ^ 2) / hklMag g i⌋ + 1

/-- The final screening width `eta = eta * |det dielectric|^(1/6)`
(source line 667). -/
noncomputable def etaD (g : Geom n c) (d : DipoleInput n) : ℝ :=
  etaRaw g * ((d.dielectric.map Rat.cast : Matrix (Fin 3) (Fin 3) ℝ).det) ^ ((1 : ℝ) / 6)

/-- The symmetric integer enumeration box `[-m, m]³` produced by
`_get_all_origins(m + 1, min_xyz=-m)`. -/
def boxZ (m : Fin 3 → ℤ) : Finset (Fin 3 → ℤ) :=
  Fintype.piFinset fun i => Finset.Icc (-(m i)) (m i)

/-- The box is closed under negation — the symmetry behind the realness
of the diagonal Ewald blocks. -/
theorem neg_mem_boxZ {m v : Fin 3 → ℤ} (h : v ∈ boxZ m) : (-v) ∈ boxZ m := by
  rw [boxZ, Fintype.mem_piFinset] at h ⊢
  intro i
  have hi := h i
  rw [Finset.mem_Icc] at hi ⊢
  constructor
  · simp only [Pi.neg_apply]
    omega
  · simp only [Pi.neg_apply]
    omega

/-- Cartesian coordinates of real-space lattice translation `t`. -/
noncomputable def originCart (g : Geom n c) (t : Fin 3 → ℤ) (k : Fin 3) : ℝ :=
  ∑ j : Fin 3, (t j : ℝ) * cellVecR g j k

/-- Cartesian coordinates of ion `i`. -/
noncomputable def ionCart (g : Geom n c) (i : Fin n) (k : Fin 3) : ℝ :=
  ∑ j : Fin 3, (g.ionR i j : ℝ) * cellVecR g j k

/-- The inverse dielectric tensor (`np.linalg.inv(dielectric)`). -/
noncomputable def invDiel (d : DipoleInput n) : Matrix (Fin 3) (Fin 3) ℝ :=
  (d.dielectric.map Rat.cast : Matrix (Fin 3) (Fin 3) ℝ)⁻¹

/-- Contraction of a Cartesian vector with the inverse dielectric tensor
(`np.einsum('ij,jk->ik', x, inv_dielectric)`). -/
noncomputable def toE (d : DipoleInput n) (x : Fin 3 → ℝ) (k : Fin 3) : ℝ :=
  ∑ l : Fin 3, x l * invDiel d l k

/-- `diffs = rij_cart - cell_origins_cart` (source line 685). -/
noncomputable def ewDiffs (g : Geom n c) (i j : Fin n) (t : Fin 3 → ℤ) (k : Fin 3) : ℝ :=
  ionCart g i k - ionCart g j k - originCart g t k

/-- `deltas = rij_e - cell_origins_e` (source line 686). -/
noncomputable def ewDeltas (g : Geom n c) (d : DipoleInput n) (i j : Fin n)
    (t : Fin 3 → ℤ) (k : Fin 3) : ℝ :=
  toE d (ionCart g i) k - toE d (ionCart g j) k - toE d (originCart g t) k

/-- `norms_2 = einsum('ij,ij->i', deltas, diffs) * eta**2` (source 687). -/
noncomputable def ewNorms2 (g : Geom n c) (d : DipoleInput n) (i j : Fin n)
    (t : Fin 3 → ℤ) : ℝ :=
  (∑ k : Fin 3, ewDeltas g d i j t k * ewDiffs g i j t k) * etaD g d ^ 2

/-- The real-space range condition `epsilon < norms < real_cutoff`
(source lines 689-690, `epsilon = 1e-10`). -/
noncomputable def ewInRange (g : Geom n c) (d : DipoleInput n) (i j : Fin n)
    (t : Fin 3 → ℤ) : Prop :=
  (1e-10 : ℝ) < Real.sqrt (ewNorms2 g d i j t) ∧
    Real.sqrt (ewNorms2 g d i j t) < realCutoff g

/-- The real-space kernel tensor `H_ab` of one ion pair and translation
(source lines 700-708), zero outside the cutoff range. -/
noncomputable def hAB (g : Geom n c) (d : DipoleInput n) (i j : Fin n)
    (t : Fin 3 → ℤ) : Matrix (Fin 3) (Fin 3) ℝ :=
  open Classical in
  if ewInRange g d i j t then
    Matrix.of fun a b =>
      (etaD g d ^ 2 *
          (3 * (d.erfc (Real.sqrt (ewNorms2 g d i j t)) /
              (Real.sqrt (ewNorms2 g d i j t) * ewNorms2 g d i j t)) / ewNorms2 g d i j t +
            2 * Real.exp (-ewNorms2 g d i j t) /
              (Real.sqrt Real.pi * ewNorms2 g d i j t) * (3 / ewNorms2 g d i j t + 2))) *
          (ewDeltas g d i j t a * ewDeltas g d i j t b) -
        (d.erfc (Real.sqrt (ewNorms2 g d i j t)) /
            (Real.sqrt (ewNorms2 g d i j t) * ewNorms2 g d i j t) +
          2 * Real.exp (-ewNorms2 g d i j t) /
            (Real.sqrt Real.pi * ewNorms2 g d i j t)) * invDiel d a b
  else 0

/-- The real-space overall scalar `eta**3 / sqrt(det dielectric)`
(source lines 710, 822). -/
noncomputable def realScalar (g : Geom n c) (d : DipoleInput n) : ℝ :=
  etaD g d ^ 3 / Real.sqrt (d.dielectric.map Rat.cast : Matrix (Fin 3) (Fin 3) ℝ).det

/-- One real-space Ewald block for `i ≤ j` at normalised q-point `qn`
(source lines 813-822): phase-weighted sum of the cached kernels over the
translations in range. -/
noncomputable def realBlockRaw (g : Geom n c) (d : DipoleInput n) (qn : Q3)
    (i j : Fin n) : Matrix (Fin 3) (Fin 3) ℂ :=
  (realScalar g d : ℂ) •
    ∑ t ∈ boxZ (maxCellsAbc g),
      ph (∑ ax : Fin 3, qn ax * (t ax : ℚ)) • (hAB g d i j t).map Complex.ofReal

/-- Cartesian reciprocal vector of integer triple `gv`. -/
noncomputable def gvecCart (g : Geom n c) (gv : Fin 3 → ℤ) (k : Fin 3) : ℝ :=
  ∑ j : Fin 3, (gv j : ℝ) * recipLat g j k

/-- The cached g-vector/ion phases `gvec_phases` (source lines 716-717). -/
noncomputable def gPhase (g : Geom n c) (gv : Fin 3 → ℤ) (i : Fin n) : ℂ :=
  ph (∑ j : Fin 3, (gv j : ℚ) * g.ionR i j)

/-- Cartesian coordinates of the normalised q-point. -/
noncomputable def qCartR (g : Geom n c) (qn : Q3) (k : Fin 3) : ℝ :=
  ∑ j : Fin 3, (qn j : ℝ) * recipLat g j k

/-- The k-vector `g + q` (source line 832). -/
noncomputable def kvecR (g : Geom n c) (qn : Q3) (gv : Fin 3 → ℤ) (k : Fin 3) : ℝ :=
  gvecCart g gv k + qCartR g qn k

/-- The screened squared k-length
`einsum('ijk,jk->i', kvecs_ab, dielectric) / (4 eta**2)` (source 835). -/
noncomputable def klen2 (g : Geom n c) (d : DipoleInput n) (qn : Q3)
    (gv : Fin 3 → ℤ) : ℝ :=
  (∑ a : Fin 3, ∑ b : Fin 3,
    kvecR g qn gv a * kvecR g qn gv b * ((d.dielectric.map Rat.cast : Matrix (Fin 3) (Fin 3) ℝ) a b)) /
    (4 * etaD g d ^ 2)

/-- The reciprocal-space cutoff condition (source lines 837-838). -/
noncomputable def inCut (g : Geom n c) (d : DipoleInput n) (qn : Q3)
    (gv : Fin 3 → ℤ) : Prop :=
  (1e-10 : ℝ) < Real.sqrt (klen2 g d qn gv) ∧
    Real.sqrt (klen2 g d qn gv) < recipCutoff g

/-- The q-point/ion phases `q_phases` (source lines 828-829). -/
noncomputable def qPhaseI (g : Geom n c) (qn : Q3) (i : Fin n) : ℂ :=
  ph (∑ j : Fin 3, qn j * g.ionR i j)

/-- The cell volume `np.dot(a0, np.cross(a1, a2))` (source line 851). -/
noncomputable def cellVol (g : Geom n c) : ℝ :=
  cellVecR g 0 0 * (cellVecR g 1 1 * cellVecR g 2 2 - cellVecR g 1 2 * cellVecR g 2 1) +
  cellVecR g 0 1 * (cellVecR g 1 2 * cellVecR g 2 0 - cellVecR g 1 0 * cellVecR g 2 2) +
  cellVecR g 0 2 * (cellVecR g 1 0 * cellVecR g 2 1 - cellVecR g 1 1 * cellVecR g 2 0)

/-- The reciprocal-space overall scalar `pi / (cell_volume * eta**2)`
(source lines 738, 852). -/
noncomputable def recipScalar (g : Geom n c) (d : DipoleInput n) : ℝ :=
  Real.pi / (cellVol g * etaD g d ^ 2)

/-- One reciprocal-space Ewald block for `i ≤ j` at normalised q-point
`qn` (source lines 825-852): screened outer products of the k-vectors,
phase-weighted, over the reciprocal vectors inside the cutoff. -/
noncomputable def recipBlockRaw (g : Geom n c) (d : DipoleInput n) (qn : Q3)
    (i j : Fin n) : Matrix (Fin 3) (Fin 3) ℂ :=
  open Classical in
  (recipScalar g d : ℂ) •
    ∑ gv ∈ boxZ (maxCellsHkl g),
      if inCut g d qn gv then
        ((gPhase g gv i * qPhaseI g qn i) / (gPhase g gv j * qPhaseI g qn j)) •
          (Matrix.of fun a b =>
            kvecR g qn gv a * kvecR g qn gv b *
              (Real.exp (-klen2 g d qn gv) / klen2 g d qn gv)).map Complex.ofReal
      else 0

/-- The full real-space block with the conjugate fill of the lower ion
triangle (source lines 855-857). -/
noncomputable def realBlock (g : Geom n c) (d : DipoleInput n) (qn : Q3)
    (i j : Fin n) : Matrix (Fin 3) (Fin 3) ℂ :=
  if i ≤ j then realBlockRaw g d qn i j
  else (realBlockRaw g d qn j i).map (starRingEnd ℂ)

/-- The full reciprocal-space block with the conjugate fill (source lines
855-858). -/
noncomputable def recipBlock (g : Geom n c) (d : DipoleInput n) (qn : Q3)
    (i j : Fin n) : Matrix (Fin 3) (Fin 3) ℂ :=
  if i ≤ j then recipBlockRaw g d qn i j
  else (recipBlockRaw g d qn j i).map (starRingEnd ℂ)

/-- `dipole_tmp = recip_dipole - real_dipole` (source line 861). -/
noncomputable def dipoleTmp (g : Geom n c) (d : DipoleInput n) (qn : Q3)
    (i j : Fin n) : Matrix (Fin 3) (Fin 3) ℂ :=
  recipBlock g d qn i j - realBlock g d qn i j

/-- The q=0 real-space term `real_q0` (source lines 670-710): the plain
sum of the kernels (unit phases). -/
noncomputable def realQ0 (g : Geom n c) (d : DipoleInput n) (i j : Fin n) :
    Matrix (Fin 3) (Fin 3) ℝ :=
  realScalar g d • ∑ t ∈ boxZ (maxCellsAbc g), hAB g d i j t

/-- The q=0 reciprocal-space term `recip_q0` (source lines 713-738). -/
noncomputable def recipQ0 (g : Geom n c) (d : DipoleInput n) (i j : Fin n) :
    Matrix (Fin 3) (Fin 3) ℂ :=
  open Classical in
  (recipScalar g d : ℂ) •
    ∑ gv ∈ boxZ (maxCellsHkl g),
      if inCut g d (fun _ => 0) gv then
        (gPhase g gv i / gPhase g gv j) •
          (Matrix.of fun a b =>
            gvecCart g gv a * gvecCart g gv b *
              (Real.exp (-klen2 g d (fun _ => 0) gv) / klen2 g d (fun _ => 0) gv)).map
            Complex.ofReal
      else 0

/-- The Born-charge contraction of the q=0 dipole term, before
symmetrisation (source lines 742-749). -/
noncomputable def dipoleQ0pre (g : Geom n c) (d : DipoleInput n) (i : Fin n)
    (a b : Fin 3) : ℂ :=
  ∑ j : Fin n, ∑ cd : Fin 3 × Fin 3,
    ((d.born i a cd.1 : ℝ) : ℂ) * ((d.born j b cd.2 : ℝ) : ℂ) *
      (recipQ0 g d i j cd.1 cd.2 - ((realQ0 g d i j cd.1 cd.2 : ℝ) : ℂ))

/-- The symmetrised q=0 self term `dipole_q0` (source lines 750-751). -/
noncomputable def dipoleQ0 (g : Geom n c) (d : DipoleInput n) (i : Fin n)
    (a b : Fin 3) : ℂ :=
  (dipoleQ0pre g d i a b + dipoleQ0pre g d i b a) / 2

/-- The assembled dipole correction at q (source lines 860-871): Born
contraction of `dipole_tmp` per ion pair, the q=0 self term subtracted on
the diagonal ion blocks, laid out as a `3n × 3n` matrix. -/
noncomputable def dipoleCorr (g : Geom n c) (d : DipoleInput n) (q : Q3) :
    Matrix (PairIx n) (PairIx n) ℂ :=
  Matrix.of fun rp cp =>
    (∑ cd : Fin 3 × Fin 3,
      ((d.born rp.1 rp.2 cd.1 : ℝ) : ℂ) * ((d.born cp.1 cp.2 cd.2 : ℝ) : ℂ) *
        dipoleTmp g d (qnorm q) rp.1 cp.1 cd.1 cd.2) -
    if rp.1 = cp.1 then dipoleQ0 g d rp.1 rp.2 cp.2 else 0

/-- The mass weighting `1 / sqrt(m_i m_j)` per `3×3` block (source lines
441-443). -/
noncomputable def dynMatWeighting (mass : Fin n → ℚ) (rp cp : PairIx n) : ℝ :=
  1 / Real.sqrt ((mass rp.1 : ℝ) * (mass cp.1 : ℝ))

/-- The fully corrected, mass-weighted dynamical matrix handed to the
eigensolver: Fourier-interpolated matrix (whose force constants may be
the real-space-ASR-corrected ones), plus the Ewald dipole correction when
Born charges and dielectric tensor are present, elementwise
mass-weighted. -/
noncomputable def dynMatCorrected (g : Geom n c)
    (fc : Fin c → Matrix (PairIx n) (PairIx n) ℝ) (mass : Fin n → ℚ)
    (dip : Option (DipoleInput n)) (q : Q3) : Matrix (PairIx n) (PairIx n) ℂ :=
  Matrix.of fun rp cp =>
    (dynMat g fc q rp cp +
      (match dip with
       | some d => dipoleCorr g d q rp cp
       | none => 0)) * (dynMatWeighting mass rp cp : ℂ)

end Ewald

/-! ### Claim C1: Hermiticity of the corrected dynamical matrix -/

/-- The trivial geometry: identity unit cell, identity supercell matrix,
one ion at the origin, one cell at the origin. -/
def geomTriv : Geom 1 1 where
  cellVec := 1
  ionR := fun _ _ => 0
  cellOrigins := fun _ _ => 0
  scMatrix := 1

unseal Rat.add Rat.mul Rat.inv Rat.sub in
set_option maxRecDepth 100000 in
/-- For the trivial geometry the single ion pair has exactly one periodic
image: the zero translation, index 62 of the x-major 5×5×5 enumeration. -/
theorem validImages_geomTriv : validImages geomTriv 0 0 0 = [(62 : Fin 125)] := by
  decide

/-- A force-constant matrix with a single off-diagonal entry: real,
not symmetric. -/
noncomputable def fcCE : Fin 1 → Matrix (PairIx 1) (PairIx 1) ℝ :=
  fun _ => Matrix.of fun rp cp =>
    if rp = ((0 : Fin 1), (0 : Fin 3)) ∧ cp = ((0 : Fin 1), (1 : Fin 3)) then 1 else 0

/-- The image phase sum of the trivial geometry at q = 0 is 1. -/
theorem scPhaseSum_triv : scPhaseSum geomTriv (fun _ => 0) 0 0 0 = 1 := by
  unfold scPhaseSum
  rw [validImages_geomTriv]
  simp [scPhase, ph_zero]

/-- Entry evaluation of the corrected matrix of the C1 counterexample. -/
theorem dynMatCorrected_CE_entry (rp cp : PairIx 1) :
    dynMatCorrected geomTriv fcCE (fun _ => 1) none (fun _ => 0) rp cp = fcCE 0 cp rp := by
  have hcount : nSCImages geomTriv 0 0 0 = 1 := by
    unfold nSCImages
    rw [validImages_geomTriv]
    rfl
  have hcell : cellPhase geomTriv (fun _ => 0) 0 = 1 := by
    simp [cellPhase, geomTriv, ph_zero]
  have hsum : scPhaseSum geomTriv (fun _ => 0) 0 0 0 = 1 := scPhaseSum_triv
  unfold dynMatCorrected dynMat fcImgWeighted dynMatWeighting
  have h0 : ∀ p : PairIx 1, p.1 = 0 := fun p => Subsingleton.elim _ _
  simp only [Matrix.of_apply, Fin.sum_univ_one]
  rw [h0 rp, h0 cp] at *
  rw [hcount, hcell, hsum]
  push_cast
  simp [Real.sqrt_one]

/-- C1 counterexample: for a valid configuration — the trivial geometry,
no Born charges (so the dipole correction is off, as the claim permits),
no ASR requested, unit masses — and the zone-centre q-point, the fully
corrected mass-weighted dynamical matrix produced by the pipeline is the
transpose of the raw force-constant block and is not Hermitian, because
nothing in the pipeline symmetrises the Fourier-interpolated matrix. -/
theorem C1_counterexample :
    ¬ (dynMatCorrected geomTriv fcCE (fun _ => 1) none (fun _ => 0)).IsHermitian := by
  intro h
  have h1 := congrFun (congrFun h ((0 : Fin 1), (0 : Fin 3))) ((0 : Fin 1), (1 : Fin 3))
  rw [Matrix.conjTranspose_apply] at h1
  rw [dynMatCorrected_CE_entry, dynMatCorrected_CE_entry] at h1
  have hA : fcCE 0 ((0 : Fin 1), (0 : Fin 3)) ((0 : Fin 1), (1 : Fin 3)) = 1 := by
    unfold fcCE
    rw [Matrix.of_apply, if_pos ⟨rfl, rfl⟩]
  have hB : fcCE 0 ((0 : Fin 1), (1 : Fin 3)) ((0 : Fin 1), (0 : Fin 3)) = 0 := by
    unfold fcCE
    rw [Matrix.of_apply, if_neg (by decide)]
  rw [hA, hB] at h1
  simp at h1

section Hermiticity

variable {n c : ℕ}

/-- A symmetric dielectric tensor has a symmetric inverse. -/
theorem invDiel_symm (d : DipoleInput n) (hd : d.dielectric.IsSymm) (a b : Fin 3) :
    invDiel d a b = invDiel d b a := by
  unfold invDiel
  have hsm : (d.dielectric.map Rat.cast : Matrix (Fin 3) (Fin 3) ℝ).transpose =
      (d.dielectric.map Rat.cast : Matrix (Fin 3) (Fin 3) ℝ) := by
    ext x y
    rw [Matrix.transpose_apply, Matrix.map_apply, Matrix.map_apply]
    rw [show d.dielectric y x = d.dielectric.transpose x y from rfl, hd]
  have h := Matrix.transpose_nonsing_inv (d.dielectric.map Rat.cast : Matrix (Fin 3) (Fin 3) ℝ)
  rw [hsm] at h
  calc invDiel d a b = ((d.dielectric.map Rat.cast : Matrix (Fin 3) (Fin 3) ℝ)⁻¹).transpose b a := rfl
    _ = invDiel d b a := by rw [h]; rfl

/-- Each real-space kernel block is a symmetric 3×3 matrix when the
dielectric tensor is symmetric. -/
theorem hAB_symm (g : Geom n c) (d : DipoleInput n) (hd : d.dielectric.IsSymm)
    (i j : Fin n) (t : Fin 3 → ℤ) (a b : Fin 3) :
    hAB g d i j t a b = hAB g d i j t b a := by
  by_cases h : ewInRange g d i j t
  · simp only [hAB, if_pos h, Matrix.of_apply]
    rw [invDiel_symm d hd]
    ring
  · simp only [hAB, if_neg h, Matrix.zero_apply]

/-- The diagonal real-space kernel is even in the lattice translation. -/
theorem hAB_diag_neg (g : Geom n c) (d : DipoleInput n) (i : Fin n) (t : Fin 3 → ℤ) :
    hAB g d i i (-t) = hAB g d i i t := by
  have horig : ∀ k, originCart g (-t) k = -originCart g t k := by
    intro k
    unfold originCart
    rw [← Finset.sum_neg_distrib]
    refine Finset.sum_congr rfl fun x _ => ?_
    rw [Pi.neg_apply]
    push_cast
    ring
  have hdiff : ∀ k, ewDiffs g i i (-t) k = -ewDiffs g i i t k := by
    intro k
    unfold ewDiffs
    rw [horig]
    ring
  have htoE : ∀ k, toE d (originCart g (-t)) k = -toE d (originCart g t) k := by
    intro k
    unfold toE
    rw [← Finset.sum_neg_distrib]
    exact Finset.sum_congr rfl fun x _ => by rw [horig]; ring
  have hdel : ∀ k, ewDeltas g d i i (-t) k = -ewDeltas g d i i t k := by
    intro k
    unfold ewDeltas
    rw [htoE]
    ring
  have hn2 : ewNorms2 g d i i (-t) = ewNorms2 g d i i t := by
    unfold ewNorms2
    congr 1
    refine Finset.sum_congr rfl fun k _ => ?_
    rw [hdel, hdiff]
    ring
  have hir : ewInRange g d i i (-t) ↔ ewInRange g d i i t := by
    unfold ewInRange
    rw [hn2]
  by_cases h : ewInRange g d i i t
  · ext a b
    simp only [hAB, if_pos h, if_pos (hir.mpr h), Matrix.of_apply]
    rw [hn2, hdel, hdel]
    ring
  · ext a b
    simp only [hAB, if_neg h, if_neg (fun hc => h (hir.mp hc)), Matrix.zero_apply]

/-- Each reciprocal-space block is a symmetric 3×3 matrix (outer products
of k-vectors). -/
theorem recipBlockRaw_symm (g : Geom n c) (d : DipoleInput n) (qn : Q3)
    (i j : Fin n) (a b : Fin 3) :
    recipBlockRaw g d qn i j a b = recipBlockRaw g d qn i j b a := by
  unfold recipBlockRaw
  rw [Matrix.smul_apply, Matrix.smul_apply, Matrix.sum_apply, Matrix.sum_apply]
  congr 1
  refine Finset.sum_congr rfl fun gv _ => ?_
  by_cases h : inCut g d qn gv
  · simp only [if_pos h, Matrix.smul_apply, Matrix.map_apply, Matrix.of_apply]
    congr 1
    push_cast
    ring
  · simp only [if_neg h, Matrix.zero_apply]

/-- Each real-space block is a symmetric 3×3 matrix when the dielectric
tensor is symmetric. -/
theorem realBlockRaw_symm (g : Geom n c) (d : DipoleInput n) (hd : d.dielectric.IsSymm)
    (qn : Q3) (i j : Fin n) (a b : Fin 3) :
    realBlockRaw g d qn i j a b = realBlockRaw g d qn i j b a := by
  unfold realBlockRaw
  rw [Matrix.smul_apply, Matrix.smul_apply, Matrix.sum_apply, Matrix.sum_apply]
  congr 1
  refine Finset.sum_congr rfl fun t _ => ?_
  rw [Matrix.smul_apply, Matrix.smul_apply, Matrix.map_apply, Matrix.map_apply,
    hAB_symm g d hd i j t a b]

/-- Diagonal real-space blocks are real: under `t ↦ -t` the kernel is even
and the phase conjugates. -/
theorem realBlockRaw_diag_real (g : Geom n c) (d : DipoleInput n) (qn : Q3)
    (i : Fin n) (a b : Fin 3) :
    (starRingEnd ℂ) (realBlockRaw g d qn i i a b) = realBlockRaw g d qn i i a b := by
  unfold realBlockRaw
  rw [Matrix.smul_apply, Matrix.sum_apply, smul_eq_mul, RingHom.map_mul (starRingEnd ℂ),
    Complex.conj_ofReal]
  congr 1
  rw [map_sum]
  refine Finset.sum_nbij' (fun t => -t) (fun t => -t) ?_ ?_ ?_ ?_ ?_
  · intro t ht
    exact neg_mem_boxZ ht
  · intro t ht
    exact neg_mem_boxZ ht
  · intro t _
    simp
  · intro t _
    simp
  · intro t ht
    rw [Matrix.smul_apply, Matrix.smul_apply, smul_eq_mul, smul_eq_mul,
      RingHom.map_mul (starRingEnd ℂ), Matrix.map_apply, Matrix.map_apply,
      Complex.conj_ofReal, hAB_diag_neg]
    congr 1
    rw [ph_conj]
    congr 1
    rw [← Finset.sum_neg_distrib]
    refine Finset.sum_congr rfl fun ax _ => ?_
    show -(qn ax * ((t ax : ℤ) : ℚ)) = qn ax * (((-t) ax : ℤ) : ℚ)
    rw [Pi.neg_apply]
    push_cast
    ring

/-- Diagonal reciprocal-space blocks are real: the ion phase ratio of an
ion with itself is 1. -/
theorem recipBlockRaw_diag_real (g : Geom n c) (d : DipoleInput n) (qn : Q3)
    (i : Fin n) (a b : Fin 3) :
    (starRingEnd ℂ) (recipBlockRaw g d qn i i a b) = recipBlockRaw g d qn i i a b := by
  unfold recipBlockRaw
  rw [Matrix.smul_apply, Matrix.sum_apply, smul_eq_mul, RingHom.map_mul (starRingEnd ℂ),
    Complex.conj_ofReal]
  congr 1
  rw [map_sum]
  refine Finset.sum_congr rfl fun gv _ => ?_
  by_cases h : inCut g d qn gv
  · rw [if_pos h, Matrix.smul_apply, smul_eq_mul, RingHom.map_mul (starRingEnd ℂ),
      Matrix.map_apply, Complex.conj_ofReal]
    have hone : gPhase g gv i * qPhaseI g qn i / (gPhase g gv i * qPhaseI g qn i) = 1 :=
      div_self (mul_ne_zero (ph_ne_zero _) (ph_ne_zero _))
    rw [hone, RingHom.map_one (starRingEnd ℂ)]
  · rw [if_neg h, Matrix.zero_apply, RingHom.map_zero (starRingEnd ℂ)]

/-- The q = 0 reciprocal term is real for every ion pair: under
`g ↦ -g` the screened outer product is even and the ion phase ratio
conjugates. -/
theorem recipQ0_real (g : Geom n c) (d : DipoleInput n) (i j : Fin n) (a b : Fin 3) :
    (starRingEnd ℂ) (recipQ0 g d i j a b) = recipQ0 g d i j a b := by
  have hq0 : ∀ k : Fin 3, qCartR g (fun _ => (0 : ℚ)) k = 0 := by
    intro k
    unfold qCartR
    simp
  have hkv : ∀ gv k, kvecR g (fun _ => (0 : ℚ)) gv k = gvecCart g gv k := by
    intro gv k
    unfold kvecR
    rw [hq0, add_zero]
  have hgveven : ∀ (gv : Fin 3 → ℤ) (k : Fin 3), gvecCart g (-gv) k = -gvecCart g gv k := by
    intro gv k
    unfold gvecCart
    rw [← Finset.sum_neg_distrib]
    refine Finset.sum_congr rfl fun x _ => ?_
    rw [Pi.neg_apply]
    push_cast
    ring
  have hkl : ∀ gv, klen2 g d (fun _ => 0) (-gv) = klen2 g d (fun _ => 0) gv := by
    intro gv
    unfold klen2
    congr 1
    refine Finset.sum_congr rfl fun x _ => ?_
    refine Finset.sum_congr rfl fun y _ => ?_
    rw [hkv, hkv, hkv, hkv, hgveven, hgveven]
    ring
  have hcut : ∀ gv, inCut g d (fun _ => 0) (-gv) ↔ inCut g d (fun _ => 0) gv := by
    intro gv
    unfold inCut
    rw [hkl]
  have hgp : ∀ (gv : Fin 3 → ℤ) (x : Fin n),
      gPhase g (-gv) x = (starRingEnd ℂ) (gPhase g gv x) := by
    intro gv x
    unfold gPhase
    rw [ph_conj]
    congr 1
    rw [← Finset.sum_neg_distrib]
    refine Finset.sum_congr rfl fun ax _ => ?_
    show (((-gv) ax : ℤ) : ℚ) * g.ionR x ax = -((gv ax : ℚ) * g.ionR x ax)
    rw [Pi.neg_apply]
    push_cast
    ring
  unfold recipQ0
  rw [Matrix.smul_apply, Matrix.sum_apply, smul_eq_mul, RingHom.map_mul (starRingEnd ℂ),
    Complex.conj_ofReal]
  congr 1
  rw [map_sum]
  refine Finset.sum_nbij' (fun gv => -gv) (fun gv => -gv) ?_ ?_ ?_ ?_ ?_
  · intro gv hgv
    exact neg_mem_boxZ hgv
  · intro gv hgv
    exact neg_mem_boxZ hgv
  · intro gv _
    simp
  · intro gv _
    simp
  · intro gv hgv
    by_cases h : inCut g d (fun _ => 0) gv
    · rw [if_pos h, if_pos ((hcut gv).mpr h)]
      rw [Matrix.smul_apply, Matrix.smul_apply, smul_eq_mul, smul_eq_mul,
        RingHom.map_mul (starRingEnd ℂ), Matrix.map_apply, Matrix.map_apply,
        Complex.conj_ofReal, Matrix.of_apply, Matrix.of_apply]
      rw [map_div₀, ← hgp, ← hgp, hkl, hgveven, hgveven]
      ring
    · rw [if_neg h, if_neg (fun hcon => h ((hcut gv).mp hcon))]
      rw [Matrix.zero_apply, RingHom.map_zero (starRingEnd ℂ)]

/-- The symmetrised q=0 self term is real (each Born-contracted summand
is, by `recipQ0_real` and the realness of `real_q0`). -/
theorem dipoleQ0_real (g : Geom n c) (d : DipoleInput n) (i : Fin n) (a b : Fin 3) :
    (starRingEnd ℂ) (dipoleQ0 g d i a b) = dipoleQ0 g d i a b := by
  have hpre : ∀ x y : Fin 3,
      (starRingEnd ℂ) (dipoleQ0pre g d i x y) = dipoleQ0pre g d i x y := by
    intro x y
    unfold dipoleQ0pre
    rw [map_sum]
    refine Finset.sum_congr rfl fun j _ => ?_
    rw [map_sum]
    refine Finset.sum_congr rfl fun cd _ => ?_
    rw [RingHom.map_mul (starRingEnd ℂ), RingHom.map_mul (starRingEnd ℂ),
      Complex.conj_ofReal, Complex.conj_ofReal, map_sub, recipQ0_real, Complex.conj_ofReal]
  unfold dipoleQ0
  rw [map_div₀, map_add, hpre, hpre, map_ofNat]

/-- The symmetrised q=0 self term is symmetric in its Cartesian indices. -/
theorem dipoleQ0_symm (g : Geom n c) (d : DipoleInput n) (i : Fin n) (a b : Fin 3) :
    dipoleQ0 g d i a b = dipoleQ0 g d i b a := by
  unfold dipoleQ0
  rw [add_comm]

/-- Swapping the ion pair conjugates `dipole_tmp` entrywise (the source's
conjugate fill, plus realness of the diagonal blocks). -/
theorem dipoleTmp_pair (g : Geom n c) (d : DipoleInput n) (qn : Q3) (i j : Fin n)
    (x y : Fin 3) :
    dipoleTmp g d qn j i x y = (starRingEnd ℂ) (dipoleTmp g d qn i j x y) := by
  unfold dipoleTmp realBlock recipBlock
  rcases lt_trichotomy i j with hij | hij | hij
  · rw [if_pos hij.le, if_pos hij.le, if_neg (not_le.mpr hij), if_neg (not_le.mpr hij)]
    rw [Matrix.sub_apply, Matrix.sub_apply, Matrix.map_apply, Matrix.map_apply, map_sub]
  · subst hij
    rw [if_pos le_rfl, if_pos le_rfl]
    rw [Matrix.sub_apply, map_sub, realBlockRaw_diag_real, recipBlockRaw_diag_real]
  · rw [if_pos hij.le, if_pos hij.le, if_neg (not_le.mpr hij), if_neg (not_le.mpr hij)]
    rw [Matrix.sub_apply, Matrix.sub_apply, Matrix.map_apply, Matrix.map_apply, map_sub,
      Complex.conj_conj, Complex.conj_conj]

/-- Each `dipole_tmp` block is a symmetric 3×3 matrix when the dielectric
tensor is. -/
theorem dipoleTmp_symm (g : Geom n c) (d : DipoleInput n) (hd : d.dielectric.IsSymm)
    (qn : Q3) (i j : Fin n) (x y : Fin 3) :
    dipoleTmp g d qn i j x y = dipoleTmp g d qn i j y x := by
  unfold dipoleTmp realBlock recipBlock
  by_cases h : i ≤ j
  · rw [if_pos h, if_pos h, Matrix.sub_apply, Matrix.sub_apply,
      recipBlockRaw_symm, realBlockRaw_symm g d hd]
  · rw [if_neg h, if_neg h, Matrix.sub_apply, Matrix.sub_apply,
      Matrix.map_apply, Matrix.map_apply, Matrix.map_apply, Matrix.map_apply,
      recipBlockRaw_symm, realBlockRaw_symm g d hd]

/-- The assembled dipole correction matrix is Hermitian whenever the
dielectric tensor is symmetric. -/
theorem dipoleCorr_isHermitian (g : Geom n c) (d : DipoleInput n)
    (hd : d.dielectric.IsSymm) (q : Q3) : (dipoleCorr g d q).IsHermitian := by
  unfold Matrix.IsHermitian
  ext rp cp
  rw [Matrix.conjTranspose_apply, ← starRingEnd_apply]
  unfold dipoleCorr
  rw [Matrix.of_apply, Matrix.of_apply, map_sub, map_sum]
  congr 1
  · refine Finset.sum_nbij' (fun cd => Prod.swap cd) (fun cd => Prod.swap cd)
      (fun _ _ => Finset.mem_univ _) (fun _ _ => Finset.mem_univ _)
      (fun cd _ => Prod.swap_swap cd) (fun cd _ => Prod.swap_swap cd) ?_
    intro cd _
    rw [RingHom.map_mul (starRingEnd ℂ), RingHom.map_mul (starRingEnd ℂ),
      Complex.conj_ofReal, Complex.conj_ofReal, ← dipoleTmp_pair]
    rw [dipoleTmp_symm g d hd]
    show ((d.born cp.1 cp.2 cd.1 : ℝ) : ℂ) * ((d.born rp.1 rp.2 cd.2 : ℝ) : ℂ) *
        dipoleTmp g d (qnorm q) rp.1 cp.1 cd.2 cd.1 =
      ((d.born rp.1 rp.2 (Prod.swap cd).1 : ℝ) : ℂ) * ((d.born cp.1 cp.2 (Prod.swap cd).2 : ℝ) : ℂ) *
        dipoleTmp g d (qnorm q) rp.1 cp.1 (Prod.swap cd).1 (Prod.swap cd).2
    rw [Prod.fst_swap, Prod.snd_swap]
    ring
  · by_cases h : cp.1 = rp.1
    · rw [if_pos h, if_pos h.symm, dipoleQ0_symm, dipoleQ0_real, h]
    · rw [if_neg h, if_neg (fun hc => h hc.symm), RingHom.map_zero (starRingEnd ℂ)]

/-- C1 (amended): for every q-point and every configuration whose
dielectric tensor is symmetric, if the bare Fourier-interpolated
dynamical matrix at q is Hermitian (as it is for force constants with
the physical transpose symmetry — raw or real-space-ASR corrected), then
the fully corrected mass-weighted dynamical matrix — with the Ewald
dipole correction added when Born charges and dielectric tensor are
present — is Hermitian. -/
theorem C1_corrected_hermitian {n c : ℕ} (g : Geom n c)
    (fc : Fin c → Matrix (PairIx n) (PairIx n) ℝ) (mass : Fin n → ℚ)
    (dip : Option (DipoleInput n)) (q : Q3)
    (hd : ∀ d ∈ dip, d.dielectric.IsSymm)
    (hD : (dynMat g fc q).IsHermitian) :
    (dynMatCorrected g fc mass dip q).IsHermitian := by
  unfold Matrix.IsHermitian
  ext rp cp
  rw [Matrix.conjTranspose_apply, ← starRingEnd_apply]
  unfold dynMatCorrected
  rw [Matrix.of_apply, Matrix.of_apply, RingHom.map_mul (starRingEnd ℂ), map_add]
  have hDe : (starRingEnd ℂ) (dynMat g fc q cp rp) = dynMat g fc q rp cp := by
    have h1 := congrFun (congrFun hD rp) cp
    rw [Matrix.conjTranspose_apply] at h1
    exact h1
  have hw : (starRingEnd ℂ) ((dynMatWeighting mass cp rp : ℝ) : ℂ) =
      ((dynMatWeighting mass rp cp : ℝ) : ℂ) := by
    rw [Complex.conj_ofReal]
    unfold dynMatWeighting
    rw [mul_comm ((mass cp.1 : ℝ)) ((mass rp.1 : ℝ))]
  rw [hDe, hw]
  congr 1
  congr 1
  match dip with
  | none =>
    rw [RingHom.map_zero (starRingEnd ℂ)]
  | some d =>
    have hcorr := dipoleCorr_isHermitian g d (hd d rfl) q
    have h2 := congrFun (congrFun hcorr rp) cp
    rw [Matrix.conjTranspose_apply] at h2
    exact h2

/-- Entry evaluation of the bare Fourier matrix on the trivial geometry at
q = 0: it is the transposed force-constant block. -/
theorem dynMat_triv_entry (fc : Fin 1 → Matrix (PairIx 1) (PairIx 1) ℝ) (rp cp : PairIx 1) :
    dynMat geomTriv fc (fun _ => 0) rp cp = ((fc 0 cp rp : ℝ) : ℂ) := by
  have hcount : nSCImages geomTriv 0 0 0 = 1 := by
    unfold nSCImages
    rw [validImages_geomTriv]
    rfl
  have hcell : cellPhase geomTriv (fun _ => 0) 0 = 1 := by
    simp [cellPhase, geomTriv, ph_zero]
  have h0 : ∀ p : PairIx 1, p.1 = 0 := fun p => Subsingleton.elim _ _
  unfold dynMat fcImgWeighted
  simp only [Matrix.of_apply, Fin.sum_univ_one]
  rw [h0 rp, h0 cp] at *
  rw [hcount, hcell, scPhaseSum_triv]
  push_cast
  ring

/-- The identity force constants of the C1 witness. -/
noncomputable def fcOne : Fin 1 → Matrix (PairIx 1) (PairIx 1) ℝ := fun _ => 1

/-- The dipole data of the C1 witness: unit Born charges, identity
(symmetric) dielectric tensor, and an arbitrary external erfc. -/
noncomputable def dipW : DipoleInput 1 where
  born := fun _ => 1
  dielectric := 1
  erfc := fun _ => 0

/-- C1 witness: the amended Hermiticity theorem instantiated at the
trivial geometry with symmetric (identity) force constants, unit masses,
and the dipole correction switched on with an identity dielectric
tensor. -/
theorem C1_corrected_hermitian_witness :
    (dynMatCorrected geomTriv fcOne (fun _ => 1) (some dipW) (fun _ => 0)).IsHermitian := by
  refine C1_corrected_hermitian geomTriv fcOne (fun _ => 1) (some dipW) (fun _ => 0) ?_ ?_
  · intro d hdmem
    rw [Option.mem_def, Option.some_inj] at hdmem
    rw [← hdmem]
    show (dipW.dielectric).IsSymm
    unfold Matrix.IsSymm dipW
    exact Matrix.transpose_one
  · unfold Matrix.IsHermitian
    ext rp cp
    rw [Matrix.conjTranspose_apply, ← starRingEnd_apply, dynMat_triv_entry, dynMat_triv_entry,
      Complex.conj_ofReal]
    unfold fcOne
    by_cases h : rp = cp
    · rw [h]
    · rw [Matrix.one_apply_ne h, Matrix.one_apply_ne (fun hc => h hc.symm)]

end Hermiticity

/-! ### Claim C4: time-reversal symmetry -/

section TimeReversal

variable {n c : ℕ}

/-- Negating the q-point conjugates every phase power. -/
theorem ph_zpow_neg (x : ℚ) (z : ℤ) :
    ph (-x) ^ z = (starRingEnd ℂ) (ph x ^ z) := (ph_zpow_conj x z).symm

/-- The bare Fourier matrix at `-q` is the entrywise conjugate of the one
at `q` (real force constants, conjugated phases). -/
theorem dynMat_neg (g : Geom n c) (fc : Fin c → Matrix (PairIx n) (PairIx n) ℝ) (q : Q3) :
    dynMat g fc (-q) = (dynMat g fc q).map (starRingEnd ℂ) := by
  ext rp cp
  rw [Matrix.map_apply]
  unfold dynMat
  rw [Matrix.of_apply, Matrix.of_apply, map_sum]
  refine Finset.sum_congr rfl fun nc _ => ?_
  rw [RingHom.map_mul (starRingEnd ℂ), RingHom.map_mul (starRingEnd ℂ), Complex.conj_ofReal]
  have hcell : cellPhase g (-q) nc = (starRingEnd ℂ) (cellPhase g q nc) := by
    unfold cellPhase
    rw [map_prod]
    refine Finset.prod_congr rfl fun i _ => ?_
    rw [Pi.neg_apply, ph_zpow_neg]
  have hsum : scPhaseSum g (-q) nc rp.1 cp.1 =
      (starRingEnd ℂ) (scPhaseSum g q nc rp.1 cp.1) := by
    unfold scPhaseSum
    rw [← List.sum_map_hom]
    congr 1
    refine List.map_congr_left fun m _ => ?_
    show scPhase g (-q) m = (starRingEnd ℂ) (scPhase g q m)
    unfold scPhase
    rw [map_prod]
    refine Finset.prod_congr rfl fun i _ => ?_
    rw [Pi.neg_apply, ph_zpow_neg]
  rw [hcell, hsum]

/-- The real-space Ewald block at `-qn` is the entrywise conjugate. -/
theorem realBlockRaw_neg (g : Geom n c) (d : DipoleInput n) (qn : Q3) (i j : Fin n)
    (a b : Fin 3) :
    realBlockRaw g d (-qn) i j a b = (starRingEnd ℂ) (realBlockRaw g d qn i j a b) := by
  unfold realBlockRaw
  rw [Matrix.smul_apply, Matrix.smul_apply, Matrix.sum_apply, Matrix.sum_apply,
    smul_eq_mul, smul_eq_mul, RingHom.map_mul (starRingEnd ℂ), Complex.conj_ofReal]
  congr 1
  rw [map_sum]
  refine Finset.sum_congr rfl fun t _ => ?_
  rw [Matrix.smul_apply, Matrix.smul_apply, smul_eq_mul, smul_eq_mul,
    RingHom.map_mul (starRingEnd ℂ), Matrix.map_apply, Complex.conj_ofReal]
  congr 1
  rw [ph_conj]
  congr 1
  rw [← Finset.sum_neg_distrib]
  refine Finset.sum_congr rfl fun ax _ => ?_
  rw [Pi.neg_apply]
  ring

/-- The reciprocal-space Ewald block at `-qn` is the entrywise conjugate:
under `g ↦ -g` the k-vector negates, the screened outer product is even
and all phases conjugate. -/
theorem recipBlockRaw_neg (g : Geom n c) (d : DipoleInput n) (qn : Q3) (i j : Fin n)
    (a b : Fin 3) :
    recipBlockRaw g d (-qn) i j a b = (starRingEnd ℂ) (recipBlockRaw g d qn i j a b) := by
  have hq : ∀ k, qCartR g (-qn) k = -qCartR g qn k := by
    intro k
    unfold qCartR
    rw [← Finset.sum_neg_distrib]
    refine Finset.sum_congr rfl fun x _ => ?_
    rw [Pi.neg_apply]
    push_cast
    ring
  have hgveven : ∀ (gv : Fin 3 → ℤ) (k : Fin 3), gvecCart g (-gv) k = -gvecCart g gv k := by
    intro gv k
    unfold gvecCart
    rw [← Finset.sum_neg_distrib]
    refine Finset.sum_congr rfl fun x _ => ?_
    rw [Pi.neg_apply]
    push_cast
    ring
  have hkv : ∀ gv k, kvecR g (-qn) (-gv) k = -kvecR g qn gv k := by
    intro gv k
    unfold kvecR
    rw [hq, hgveven]
    ring
  have hkl : ∀ gv, klen2 g d (-qn) (-gv) = klen2 g d qn gv := by
    intro gv
    unfold klen2
    congr 1
    refine Finset.sum_congr rfl fun x _ => ?_
    refine Finset.sum_congr rfl fun y _ => ?_
    rw [hkv, hkv]
    ring
  have hcut : ∀ gv, inCut g d (-qn) (-gv) ↔ inCut g d qn gv := by
    intro gv
    unfold inCut
    rw [hkl]
  have hgp : ∀ (gv : Fin 3 → ℤ) (x : Fin n),
      gPhase g (-gv) x = (starRingEnd ℂ) (gPhase g gv x) := by
    intro gv x
    unfold gPhase
    rw [ph_conj]
    congr 1
    rw [← Finset.sum_neg_distrib]
    refine Finset.sum_congr rfl fun ax _ => ?_
    show (((-gv) ax : ℤ) : ℚ) * g.ionR x ax = -((gv ax : ℚ) * g.ionR x ax)
    rw [Pi.neg_apply]
    push_cast
    ring
  have hqp : ∀ x : Fin n, qPhaseI g (-qn) x = (starRingEnd ℂ) (qPhaseI g qn x) := by
    intro x
    unfold qPhaseI
    rw [ph_conj]
    congr 1
    rw [← Finset.sum_neg_distrib]
    refine Finset.sum_congr rfl fun ax _ => ?_
    rw [Pi.neg_apply]
    ring
  unfold recipBlockRaw
  rw [Matrix.smul_apply, Matrix.smul_apply, Matrix.sum_apply, Matrix.sum_apply,
    smul_eq_mul, smul_eq_mul, RingHom.map_mul (starRingEnd ℂ), Complex.conj_ofReal]
  congr 1
  rw [map_sum]
  refine Finset.sum_nbij' (fun gv => -gv) (fun gv => -gv) ?_ ?_ ?_ ?_ ?_
  · intro gv hgv
    exact neg_mem_boxZ hgv
  · intro gv hgv
    exact neg_mem_boxZ hgv
  · intro gv _
    simp
  · intro gv _
    simp
  · intro gv hgv
    beta_reduce
    have hcut2 : inCut g d (-qn) gv ↔ inCut g d qn (-gv) := by
      have h3 := hcut (-gv)
      rw [neg_neg] at h3
      exact h3
    have hkv2 : ∀ k, kvecR g (-qn) gv k = -kvecR g qn (-gv) k := by
      intro k
      have h3 := hkv (-gv) k
      rw [neg_neg] at h3
      exact h3
    have hkl2 : klen2 g d (-qn) gv = klen2 g d qn (-gv) := by
      have h3 := hkl (-gv)
      rw [neg_neg] at h3
      exact h3
    have hgp2 : ∀ x, (starRingEnd ℂ) (gPhase g (-gv) x) = gPhase g gv x := by
      intro x
      rw [hgp gv x]
      exact Complex.conj_conj _
    by_cases h : inCut g d (-qn) gv
    · rw [if_pos h, if_pos (hcut2.mp h)]
      rw [Matrix.smul_apply, Matrix.smul_apply, smul_eq_mul, smul_eq_mul,
        RingHom.map_mul (starRingEnd ℂ), Matrix.map_apply, Matrix.map_apply,
        Complex.conj_ofReal, Matrix.of_apply, Matrix.of_apply,
        map_div₀, RingHom.map_mul (starRingEnd ℂ), RingHom.map_mul (starRingEnd ℂ),
        hgp2, hgp2, ← hqp i, ← hqp j, hkl2]
      congr 2
      rw [hkv2, hkv2]
      ring
    · rw [if_neg h, if_neg (fun hcon => h (hcut2.mpr hcon))]
      simp

/-- `dipole_tmp` at `-qn` is the entrywise conjugate. -/
theorem dipoleTmp_neg (g : Geom n c) (d : DipoleInput n) (qn : Q3) (i j : Fin n)
    (x y : Fin 3) :
    dipoleTmp g d (-qn) i j x y = (starRingEnd ℂ) (dipoleTmp g d qn i j x y) := by
  unfold dipoleTmp realBlock recipBlock
  by_cases h : i ≤ j
  · simp only [if_pos h, Matrix.sub_apply, map_sub]
    rw [realBlockRaw_neg, recipBlockRaw_neg]
  · simp only [if_neg h, Matrix.sub_apply, Matrix.map_apply, map_sub]
    rw [realBlockRaw_neg, recipBlockRaw_neg]

set_option maxHeartbeats 1600000 in
/-- The dipole correction at `-q` is the entrywise conjugate of the one at
`q` (the q-independent q=0 self term is real). -/
theorem dipoleCorr_neg (g : Geom n c) (d : DipoleInput n) (q : Q3) :
    dipoleCorr g d (-q) = (dipoleCorr g d q).map (starRingEnd ℂ) := by
  ext rp cp
  rw [Matrix.map_apply]
  unfold dipoleCorr
  rw [Matrix.of_apply, Matrix.of_apply, map_sub, map_sum]
  congr 1
  · refine Finset.sum_congr rfl fun cd _ => ?_
    rw [RingHom.map_mul (starRingEnd ℂ), RingHom.map_mul (starRingEnd ℂ),
      Complex.conj_ofReal, Complex.conj_ofReal, qnorm_neg, dipoleTmp_neg]
  · by_cases h : rp.1 = cp.1
    · rw [if_pos h]
      exact (dipoleQ0_real g d rp.1 rp.2 cp.2).symm
    · rw [if_neg h]
      simp

set_option maxHeartbeats 1600000 in
/-- The fully corrected mass-weighted matrix at `-q` is the entrywise
conjugate of the one at `q`. -/
theorem dynMatCorrected_neg (g : Geom n c) (fc : Fin c → Matrix (PairIx n) (PairIx n) ℝ)
    (mass : Fin n → ℚ) (dip : Option (DipoleInput n)) (q : Q3) :
    dynMatCorrected g fc mass dip (-q) =
      (dynMatCorrected g fc mass dip q).map (starRingEnd ℂ) := by
  ext rp cp
  rw [Matrix.map_apply]
  unfold dynMatCorrected
  rw [Matrix.of_apply, Matrix.of_apply, RingHom.map_mul (starRingEnd ℂ), map_add,
    Complex.conj_ofReal]
  congr 1
  congr 1
  · have h := dynMat_neg g fc q
    have h2 := congrFun (congrFun h rp) cp
    rw [Matrix.map_apply] at h2
    exact h2
  · match dip with
    | none => rw [RingHom.map_zero (starRingEnd ℂ)]
    | some d =>
      have h := dipoleCorr_neg g d q
      have h2 := congrFun (congrFun h rp) cp
      rw [Matrix.map_apply] at h2
      exact h2

/-- The characteristic matrix of a transpose is the transposed
characteristic matrix. -/
theorem charmatrix_transpose_eq {ι : Type} [DecidableEq ι] [Fintype ι]
    (M : Matrix ι ι ℂ) : Matrix.charmatrix M.transpose = (Matrix.charmatrix M).transpose := by
  ext i j
  rw [Matrix.transpose_apply, Matrix.charmatrix_apply, Matrix.charmatrix_apply,
    Matrix.transpose_apply]
  congr 1
  rw [Matrix.diagonal_apply, Matrix.diagonal_apply]
  by_cases h : i = j
  · rw [if_pos h, if_pos h.symm]
  · rw [if_neg h, if_neg (fun hc => h hc.symm)]

/-- Transposition preserves the characteristic polynomial, hence the
eigenvalue multiset. -/
theorem charpoly_transpose_eq {ι : Type} [DecidableEq ι] [Fintype ι]
    (M : Matrix ι ι ℂ) : M.transpose.charpoly = M.charpoly := by
  rw [Matrix.charpoly, Matrix.charpoly, charmatrix_transpose_eq, Matrix.det_transpose]

/-- The Hermitian matrix LAPACK's `zheevd`/`zheev` actually diagonalise:
only the lower triangle (in the flat `3i+a` index order) is referenced,
the upper triangle is taken as its conjugate, and the diagonal as its
real part. -/
noncomputable def lowerHerm {n : ℕ} (M : Matrix (PairIx n) (PairIx n) ℂ) :
    Matrix (PairIx n) (PairIx n) ℂ :=
  Matrix.of fun rp cp =>
    if 3 * cp.1.val + cp.2.val < 3 * rp.1.val + rp.2.val then M rp cp
    else if 3 * rp.1.val + rp.2.val < 3 * cp.1.val + cp.2.val then
      (starRingEnd ℂ) (M cp rp)
    else (((M rp cp).re : ℝ) : ℂ)

/-- Flat indices are injective on (ion, axis) pairs. -/
theorem pairIx_flat_inj {n : ℕ} (rp cp : PairIx n)
    (h : 3 * rp.1.val + rp.2.val = 3 * cp.1.val + cp.2.val) : rp = cp := by
  have hb1 : rp.2.val < 3 := rp.2.isLt
  have hb2 : cp.2.val < 3 := cp.2.isLt
  have h1 : rp.1.val = cp.1.val := by omega
  have h2 : rp.2.val = cp.2.val := by omega
  rcases rp with ⟨ri, ra⟩
  rcases cp with ⟨ci, ca⟩
  rw [Prod.mk.injEq]
  exact ⟨Fin.ext h1, Fin.ext h2⟩

/-- The Hermitianisation is Hermitian. -/
theorem lowerHerm_isHermitian {n : ℕ} (M : Matrix (PairIx n) (PairIx n) ℂ) :
    (lowerHerm M).IsHermitian := by
  unfold Matrix.IsHermitian
  ext rp cp
  rw [Matrix.conjTranspose_apply, ← starRingEnd_apply]
  unfold lowerHerm
  rw [Matrix.of_apply, Matrix.of_apply]
  rcases lt_trichotomy (3 * cp.1.val + cp.2.val) (3 * rp.1.val + rp.2.val) with h | h | h
  · rw [if_pos h, if_neg (by omega), if_pos h, Complex.conj_conj]
  · have he : cp = rp := pairIx_flat_inj cp rp h
    subst he
    rw [if_neg (by omega), if_neg (by omega), Complex.conj_ofReal]
  · rw [if_pos h, if_neg (by omega), if_pos h]

/-- Hermitianisation commutes with entrywise conjugation. -/
theorem lowerHerm_map_conj {n : ℕ} (M : Matrix (PairIx n) (PairIx n) ℂ) :
    lowerHerm (M.map (starRingEnd ℂ)) = (lowerHerm M).map (starRingEnd ℂ) := by
  ext rp cp
  unfold lowerHerm
  rw [Matrix.map_apply, Matrix.of_apply, Matrix.of_apply]
  rcases lt_trichotomy (3 * cp.1.val + cp.2.val) (3 * rp.1.val + rp.2.val) with h | h | h
  · simp only [Matrix.map_apply, if_pos h]
  · have h1 : ¬ (3 * cp.1.val + cp.2.val < 3 * rp.1.val + rp.2.val) := by omega
    have h2 : ¬ (3 * rp.1.val + rp.2.val < 3 * cp.1.val + cp.2.val) := by omega
    simp only [Matrix.map_apply, if_neg h1, if_neg h2, Complex.conj_ofReal, Complex.conj_re]
  · have h1 : ¬ (3 * cp.1.val + cp.2.val < 3 * rp.1.val + rp.2.val) := by omega
    simp only [Matrix.map_apply, if_neg h1, if_pos h, Complex.conj_conj]

/-- A Hermitian matrix's entrywise conjugate is its transpose. -/
theorem hermitian_map_conj_transpose {n : ℕ} (M : Matrix (PairIx n) (PairIx n) ℂ)
    (h : M.IsHermitian) : M.map (starRingEnd ℂ) = M.transpose := by
  ext rp cp
  rw [Matrix.map_apply, Matrix.transpose_apply]
  have h1 := congrFun (congrFun h cp) rp
  rw [Matrix.conjTranspose_apply, ← starRingEnd_apply] at h1
  exact h1

/-- C4: for every configuration and every q-point, with no
direction-dependent non-analytic correction, the corrected mass-weighted
matrix at `-q` is the entrywise conjugate of the one at `q`; consequently
the Hermitianised matrices the solver actually diagonalises are mutual
transposes and share the characteristic polynomial, so the ascending
eigenvalue lists — and hence the reported frequency lists — at `q` and
`-q` are identical. -/
theorem C4_time_reversal {n c : ℕ} (g : Geom n c)
    (fc : Fin c → Matrix (PairIx n) (PairIx n) ℝ) (mass : Fin n → ℚ)
    (dip : Option (DipoleInput n)) (q : Q3) :
    dynMatCorrected g fc mass dip (-q) =
      (dynMatCorrected g fc mass dip q).map (starRingEnd ℂ) ∧
    (lowerHerm (dynMatCorrected g fc mass dip (-q))).charpoly =
      (lowerHerm (dynMatCorrected g fc mass dip q)).charpoly := by
  have h1 := dynMatCorrected_neg g fc mass dip q
  refine ⟨h1, ?_⟩
  rw [h1, lowerHerm_map_conj,
    hermitian_map_conj_transpose _ (lowerHerm_isHermitian _), charpoly_transpose_eq]

end TimeReversal
